import Mathlib

/-!
# hls-transcoder: a shallow embedding of `transcoder/transcoder.go`

The Go package `transcoder` turns a set of named video profiles into one
ffmpeg invocation per profile and a master HLS playlist.  This file embeds the
parts of `transcoder.go` that build text (the playlist, the ffmpeg argument
list) and the control flow of `Transcode` and `fetchMetadata`, and proves
properties of them.

Conventions of the embedding

* a Go `string` is a Lean `String` (valid UTF-8 text);
* a Go `int` is an `Int`; the one place where the 64-bit width is visible
  (`profile.Bitrate*2`) wraps explicitly with `wrapInt64`;
* a Go `map[string]VideoProfile` is the list of its entries; a `range` over the
  map visits that list in an arbitrary order, so every function that ranges
  over the map takes the order of the visit as a list of entries;
* a finite `float64` is a sign, a mantissa and a binary exponent (`Float64`);
* calls that leave the program (file system, ffprobe, ffmpeg, `runtime.NumCPU`)
  take their outcome from a `World` and are recorded in a trace of `Event`s;
  the clock (`time.Now`, `time.Since`) is read for log lines only and is left out;
* library functions of Go (`sort.Slice`, `path.Join`, `fmt.Sprintf`,
  `strings.HasPrefix`, `strings.Join`) are modelled next to their callers.
-/

set_option maxRecDepth 100000

namespace Hls

/-! ## Data model (`transcoder.go`, lines 20-57) -/

/-- Go `type VideoProfile struct`: width, height, bitrate (kbit/s), quality. -/
structure VideoProfile where
  Width : Int
  Height : Int
  Bitrate : Int
  Quality : Int
deriving DecidableEq, Repr

/-- Go `type AudioProfile struct`. -/
structure AudioProfile where
  Bitrate : Int
deriving DecidableEq, Repr

/-- The entries of a Go `map[string]VideoProfile`, in some order. -/
abbrev ProfileMap := List (String × VideoProfile)

/-! ## Go library functions on strings -/

/-- Go `strings.HasPrefix(s, p)`. -/
def HasPrefix (s p : String) : Bool := p.data.isPrefixOf s.data

/-- Go `fmt.Sprintf("%d", n)` for an `int`. -/
def fmtInt (n : Int) : String := toString n

/-- The tail `%!(EXTRA string=a, string=b)` that `fmt.Sprintf` appends when
arguments are left over. -/
def sprintfExtra : List String → List Char
  | [] => []
  | a :: as =>
    ("%!(EXTRA " ++ String.intercalate ", " ((a :: as).map fun x => "string=" ++ x) ++ ")").data

/-- Go `fmt.Sprintf(format, args...)` for string arguments, on the characters of
the format.  Plain text is copied, `%%` is a percent sign, `%s` and `%v` print
the next argument (`%!s(MISSING)` when there is none), a lone `%` at the end is
`%!(NOVERB)`, any other verb prints Go's bad-verb form `%!d(string=arg)`.
Flags, widths and the verbs `%q %x %X %T %p` are not modelled; the only format
the repository passes is `"%s/%s.m3u8"`. -/
def sprintfAux : List Char → List String → List Char
  | [], args => sprintfExtra args
  | [c], args => if c = '%' then "%!(NOVERB)".data ++ sprintfExtra args else c :: sprintfExtra args
  | c :: v :: rest, args =>
    if c = '%' then
      if v = '%' then '%' :: sprintfAux rest args
      else match args with
        | [] => ("%!" ++ String.singleton v ++ "(MISSING)").data ++ sprintfAux rest []
        | a :: as =>
          if v = 's' ∨ v = 'v' then a.data ++ sprintfAux rest as
          else ("%!" ++ String.singleton v ++ "(string=" ++ a ++ ")").data ++ sprintfAux rest as
    else c :: sprintfAux (v :: rest) args

/-- Go `fmt.Sprintf(format, args...)` with string arguments. -/
def Sprintf (format : String) (args : List String) : String :=
  ⟨sprintfAux format.data args⟩

/-- Go `strings.Join(elems, sep)`. -/
def Join (elems : List String) (sep : String) : String := String.intercalate sep elems

/-! ## `sort.Slice` -/

/-- One element of the anonymous `layers` slice of `playlist`. -/
structure Layer where
  Bitrate : Int
  Entries : List String
deriving DecidableEq, Repr

/-- The `less` closure of `playlist`: `layers[i].Bitrate < layers[j].Bitrate`. -/
def layerLess (a b : Layer) : Bool := decide (a.Bitrate < b.Bitrate)

/-- The type of Go `sort.Slice` at the slice type of `playlist`. -/
abbrev SliceSorter := (Layer → Layer → Bool) → List Layer → List Layer

/-- What the Go documentation promises of `sort.Slice(x, less)`: the slice is
rearranged (a permutation) so that no later element is `less` than an earlier
one.  Nothing is promised about the order of elements that compare equal
("The sort is not guaranteed to be stable"). -/
def SortsSlice (sortSlice : SliceSorter) : Prop :=
  ∀ l : List Layer,
    (sortSlice layerLess l).Perm l ∧
      (sortSlice layerLess l).Pairwise fun a b => layerLess b a = false

/-- The inner loop of Go `insertionSortLessFunc`: the element `x` moves left
past every element it is `less` than.  The sorted part is held reversed, its
last element first. -/
def insertBack {α : Type} (less : α → α → Bool) (x : α) : List α → List α
  | [] => [x]
  | y :: rp => if less x y then y :: insertBack less x rp else x :: y :: rp

/-- Go `insertionSortLessFunc(data, 0, n)`, the whole of `sort.Slice` for a slice
of at most 12 elements (Go 1.19 and later; for fewer than 7 elements also in
earlier versions). -/
def insertionSortLessFunc {α : Type} (less : α → α → Bool) (data : List α) : List α :=
  (data.foldl (fun rp x => insertBack less x rp) []).reverse

/-! ## `playlist` (`transcoder.go`, lines 260-301) -/

/-- The `codecs` variable of `playlist`, lines 267-272. -/
def playlistCodecs (name : String) : String :=
  if HasPrefix name "vp9" then "vp09.00.10.08" else "avc1.42E01E"

/-- The `fmt.Sprintf` of line 279: the `#EXT-X-STREAM-INF` line of a profile. -/
def streamInf (name : String) (profile : VideoProfile) : String :=
  "#EXT-X-STREAM-INF:BANDWIDTH=" ++ fmtInt profile.Bitrate ++ ",CODECS=\"" ++
    playlistCodecs name ++ ",mp4a.40.2\",RESOLUTION=" ++ fmtInt profile.Width ++ "x" ++
    fmtInt profile.Height ++ ",NAME=" ++ name

/-- The layer appended for one map entry, lines 273-282. -/
def playlistLayer (segmentNameFmt : String) (entry : String × VideoProfile) : Layer :=
  { Bitrate := entry.2.Bitrate
    Entries := [streamInf entry.1 entry.2, Sprintf segmentNameFmt [entry.1, entry.1]] }

/-- The slice `layers` after `sort.Slice`, lines 266-289; `profiles` is the map
in the order the `range` visits it. -/
def playlistLayers (sortSlice : SliceSorter) (profiles : ProfileMap)
    (segmentNameFmt : String) : List Layer :=
  sortSlice layerLess (profiles.map (playlistLayer segmentNameFmt))

/-- Go `playlist(profiles, segmentNameFmt)`; `profiles` is the map in the order
the `range` of line 266 visits it, `sortSlice` is `sort.Slice`. -/
def playlist (sortSlice : SliceSorter) (profiles : ProfileMap) (segmentNameFmt : String) :
    String :=
  let layers := playlistLayers sortSlice profiles segmentNameFmt
  let playlist := layers.foldl (fun acc profile => acc ++ profile.Entries) ["#EXTM3U"]
  Join playlist "\n"

/-- The lines of a text: the pieces between newline characters. -/
def lines (s : String) : List String := (s.data.splitOn '\n').map String.mk

/-- The pair of lines the specification prescribes for the profile `name`: the
`#EXT-X-STREAM-INF` header with bandwidth, codecs, resolution and name, then
the relative path `<name>/<name>.m3u8` of the variant playlist. -/
def variantLines (entry : String × VideoProfile) : List String :=
  [ "#EXT-X-STREAM-INF:BANDWIDTH=" ++ toString entry.2.Bitrate ++ ",CODECS=\"" ++
      (if HasPrefix entry.1 "vp9" then "vp09.00.10.08" else "avc1.42E01E") ++
      ",mp4a.40.2\",RESOLUTION=" ++ toString entry.2.Width ++ "x" ++ toString entry.2.Height ++
      ",NAME=" ++ entry.1,
    entry.1 ++ "/" ++ entry.1 ++ ".m3u8" ]

/-! ## Machine integers and floats -/

/-- The value a 64-bit Go `int` holds after an arithmetic result `x` wraps. -/
def wrapInt64 (x : Int) : Int := (x + 2 ^ 63) % 2 ^ 64 - 2 ^ 63

/-- A finite IEEE-754 double: the value `(-1)^neg * mant * 2^exp`.  Infinities and
NaN are left out; no operation of `transcoder.go` on a 64-bit `int` reaches them. -/
structure Float64 where
  neg : Bool
  mant : Nat
  exp : Int
deriving DecidableEq, Repr

/-- The number of binary digits of `m`, counted in at most `fuel` halvings. -/
def bitLengthAux : Nat → Nat → Nat
  | 0, _ => 0
  | fuel + 1, m => if m = 0 then 0 else bitLengthAux fuel (m / 2) + 1

/-- The number of binary digits of `m`. -/
def bitLength (m : Nat) : Nat := bitLengthAux m m

/-- Rounding of `m * 2^e` to the 53-bit significand of a double, to nearest, ties
to even (the IEEE-754 default, which Go uses). -/
def Float64.round (neg : Bool) (m : Nat) (e : Int) : Float64 :=
  if bitLength m ≤ 53 then ⟨neg, m, e⟩
  else
    let s := bitLength m - 53
    let q := m / 2 ^ s
    let r := m % 2 ^ s
    let half := 2 ^ (s - 1)
    ⟨neg, if r > half ∨ (r = half ∧ q % 2 = 1) then q + 1 else q, e + s⟩

/-- Go `float64(n)` for an `int`. -/
def Float64.ofInt (n : Int) : Float64 := Float64.round (decide (n < 0)) n.natAbs 0

/-- Go `x * y` on `float64`. -/
def Float64.mul (x y : Float64) : Float64 :=
  Float64.round (x.neg != y.neg) (x.mant * y.mant) (x.exp + y.exp)

/-- The real number a `Float64` stands for. -/
def Float64.toRat (x : Float64) : ℚ := (if x.neg then -1 else 1) * (x.mant : ℚ) * (2 : ℚ) ^ x.exp

/-- The constant `0.8` as a `float64`: `0x3FE999999999999A`, the double nearest to 4/5. -/
def float0_8 : Float64 := ⟨false, 7205759403792794, -53⟩

/-- The constant `1.2` as a `float64`: `0x3FF3333333333333`, the double nearest to 6/5. -/
def float1_2 : Float64 := ⟨false, 5404319552844595, -52⟩

/-- The absolute value of `x` times `10^prec`, rounded to an integer, ties to even on the
exact binary value, as Go's `strconv` rounds a decimal expansion. -/
def Float64.scaled (prec : Nat) (x : Float64) : Nat :=
  match x.exp with
  | Int.ofNat k => x.mant * 2 ^ k * 10 ^ prec
  | Int.negSucc k =>
    let den := 2 ^ (k + 1)
    let num := x.mant * 10 ^ prec
    let q := num / den
    let r := num % den
    if 2 * r > den ∨ (2 * r = den ∧ q % 2 = 1) then q + 1 else q

/-- Go `fmt.Sprintf("%.<prec>f", x)`; the verb `%f` is `%.6f`. -/
def fmtFloat (prec : Nat) (x : Float64) : String :=
  let n := x.scaled prec
  let fp := toString (n % 10 ^ prec)
  (if x.neg then "-" else "") ++ toString (n / 10 ^ prec) ++
    (if prec = 0 then "" else "." ++ String.mk (List.replicate (prec - fp.length) '0') ++ fp)

/-! ## `path.Join` -/

/-- One element of a path in Go `path.Clean`, against the elements kept so far
(`out`, last element first): an empty element and `.` are dropped, `..` removes
the last element kept, or is dropped at the root, or is kept when the path is
not rooted and nothing but `..` elements were kept; any other element is kept. -/
def cleanStep (rooted : Bool) (out : List (List Char)) (elem : List Char) : List (List Char) :=
  if elem = [] ∨ elem = ['.'] then out
  else if elem = ['.', '.'] then
    match out with
    | [] => if rooted then [] else [elem]
    | top :: below => if top = ['.', '.'] then elem :: out else below
  else elem :: out

/-- Go `path.Clean(p)`: the shortest path equivalent to `p`. -/
def pathClean (p : String) : String :=
  if p = "" then "."
  else
    let rooted := p.data.head? = some '/'
    let out := (p.data.splitOn '/').foldl (cleanStep rooted) []
    let body := String.mk (List.intercalate ['/'] out.reverse)
    if rooted then "/" ++ body else if out = [] then "." else body

/-- Go `path.Join(elem...)`: empty elements are ignored, the rest is joined by
slashes and cleaned; the result is empty when every element is empty. -/
def pathJoin (elem : List String) : String :=
  match elem.filter (fun e => e ≠ "") with
  | [] => ""
  | es => pathClean (String.intercalate "/" es)

/-! ## The transcoder -/

/-- Modelled from the spec: the type `ProbeVideoData`, the result of `ProbeVideo`
and the `Video` field of `ProbeMediaData`, is declared in a file of the package
that is not under `src/`.  Only the field `fetchMetadata` reads is kept: the
keyframe timestamps, "ordered sequence of float64 or absent"; `none` is Go `nil`. -/
structure ProbeVideoData where
  PktPtsTime : Option (List Float64)
deriving DecidableEq, Repr

/-- Modelled from the spec: the type `ProbeMediaData`, the result of `ProbeMedia`,
is declared in a file of the package that is not under `src/`.  Only the field
`fetchMetadata` reads is kept: `Video`, a pointer that is `nil` (`none`) when
the media has no video stream. -/
structure ProbeMediaData where
  Video : Option ProbeVideoData
deriving DecidableEq, Repr

/-- Go `type Transcoder struct`, without the context, its cancel function and
the mutex. -/
structure Transcoder where
  TrascodingID : String
  MediaDir : String
  MediaUrl : String
  TranscodeDir : String
  VideoProfiles : ProfileMap
  VideoKeyframes : Bool
  AudioProfile : AudioProfile
  Cache : Bool
  CacheDir : String
  FFmpegBinary : String
  FFprobeBinary : String
  playlist : String
  breakpoints : List Float64
  segmentLength : Float64
  segmentOffset : Float64
  segmentBufferMin : Int
  segmentBufferMax : Int
  segmentPrefix : String
  metadata : Option ProbeMediaData
deriving DecidableEq, Repr

/-- The `scale` variable of `Transcode`, lines 149-154. -/
def scaleArg (profile : VideoProfile) : String :=
  if profile.Width ≥ profile.Height then "scale=-2:" ++ fmtInt profile.Height
  else "scale=" ++ fmtInt profile.Width ++ ":-2"

/-- The `threads` variable of `Transcode`, lines 155-163; `numCPU` is the value
of `runtime.NumCPU()`. -/
def threadsArg (numCPU : Int) : Int :=
  if numCPU ≤ 0 then 1
  else
    let threads := numCPU - 1
    if threads > 16 then 16 else threads

/-- The codec arguments of `Transcode`, lines 180-195. -/
def codecArgs (name : String) : List String :=
  if HasPrefix name "vp9" then
    ["-c:v", "libvpx-vp9", "-hls_segment_type", "fmp4", "-tag:v", "vp09", "-tile-columns", "2"]
  else
    ["-c:v", "libx264", "-hls_segment_type", "mpegts", "-tag:v", "avc1.42E01E",
      "-tune", "zerolatency"]

/-- The slice `args` that `Transcode` builds for one profile, lines 138-214. -/
def encoderArgs (t : Transcoder) (numCPU : Int) (name : String) (profile : VideoProfile) :
    List String :=
  ["-loglevel", "warning"] ++
  ["-i", t.MediaUrl, "-force_key_frames", "expr:gte(t,n_forced*10)"] ++
  ["-vf", scaleArg profile,
    "-preset", "fast",
    "-r", "25",
    "-b:v", fmtInt profile.Bitrate ++ "k",
    "-threads", fmtInt (threadsArg numCPU),
    "-crf", fmtInt profile.Quality,
    "-minrate", fmtFloat 6 (Float64.mul (Float64.ofInt profile.Bitrate) float0_8) ++ "k",
    "-maxrate", fmtFloat 6 (Float64.mul (Float64.ofInt profile.Bitrate) float1_2) ++ "k",
    "-bufsize", fmtInt (wrapInt64 (profile.Bitrate * 2)) ++ "k"] ++
  codecArgs name ++
  ["-c:a", "aac", "-b:a", fmtInt t.AudioProfile.Bitrate ++ "k"] ++
  ["-f", "hls",
    "-movflags", "+faststart",
    "-hls_time", fmtFloat 2 t.segmentLength,
    "-hls_list_size", "0",
    "-hls_flags", "split_by_time",
    "-hls_playlist_type", "vod",
    "-hls_segment_filename",
    pathJoin [t.TranscodeDir, name, Sprintf "%s-%%05d.ts" [t.segmentPrefix]],
    pathJoin [t.TranscodeDir, name, Sprintf "%s.m3u8" [name]]]

/-- The value ffmpeg reads for the option `flag`: the argument list is read as
option-value pairs (every option of `encoderArgs` takes one value), the last,
unpaired argument is the output file.  A value found this way stands right
after its option in the list (`adjacent_of_optValue`); reading in pairs keeps
a media URL that looks like an option from being taken for one. -/
def optValue (flag : String) : List String → Option String
  | f :: v :: rest => if f = flag then some v else optValue flag rest
  | _ => none

/-! ## The world outside the program -/

/-- A Go `error` value: `none` is `nil`, `some msg` an error with that message. -/
abbrev GoError := Option String

/-- What the program asks of the world, in the order it asks. -/
inductive Event where
  | writeFile (name data : String)
  | probeMedia (ffprobe url : String)
  | probeVideo (ffprobe url : String)
  | stat (name : String)
  | mkdir (name : String)
  | start (binary : String) (args : List String)
  | wait (binary : String) (args : List String)
  | logError (msg err : String)
  | logInfo (msg : String)
deriving DecidableEq, Repr

/-- The outcomes of the calls that leave the program.  `ProbeMedia` and
`ProbeVideo` are functions of the package whose file is not under `src/`; a
successful call returns a record (never a `nil` pointer with a `nil` error).
The outcomes of the calls made for one profile are indexed by the name of the
profile. -/
structure World where
  NumCPU : Int
  WriteFile : String → String → GoError
  ProbeMedia : String → String → Except String ProbeMediaData
  ProbeVideo : String → String → Except String ProbeVideoData
  StatIsNotExist : String → Bool
  Mkdir : String → GoError
  Start : String → GoError
  Wait : String → GoError

/-- The log line written when `err` is not `nil`. -/
def logIfError (msg : String) (err : GoError) : List Event :=
  match err with
  | some e => [Event.logError msg e]
  | none => []

/-- The result of a method of `*Transcoder`: the receiver after the call, the
error returned and the calls made. -/
structure Outcome where
  t : Transcoder
  err : GoError
  trace : List Event

/-- Go `(t *Transcoder) fetchMetadata()`, lines 235-258.  When `ProbeMedia` fails
the pointer it returns with the error, which line 240 stores in `t.metadata`,
is taken to be `nil`. -/
def fetchMetadata (w : World) (t : Transcoder) : Outcome :=
  let ev1 := [Event.logInfo "fetching metadata", Event.probeMedia t.FFprobeBinary t.MediaUrl]
  match w.ProbeMedia t.FFprobeBinary t.MediaUrl with
  | .error e =>
    { t := { t with metadata := none }
      err := some ("unable probe media for metadata: " ++ e)
      trace := ev1 }
  | .ok metadata =>
    match metadata.Video with
    | some video =>
      if video.PktPtsTime = none ∧ t.VideoKeyframes = true then
        let ev2 := ev1 ++ [Event.probeVideo t.FFprobeBinary t.MediaUrl]
        match w.ProbeVideo t.FFprobeBinary t.MediaUrl with
        | .error e =>
          { t := { t with metadata := some metadata }
            err := some ("unable probe video for keyframes: " ++ e)
            trace := ev2 }
        | .ok videoData =>
          let video := { video with PktPtsTime := videoData.PktPtsTime }
          { t := { t with metadata := some { metadata with Video := some video } }
            err := none
            trace := ev2 ++ [Event.logInfo "fetched metadata"] }
      else
        { t := { t with metadata := some metadata }
          err := none
          trace := ev1 ++ [Event.logInfo "fetched metadata"] }
    | none =>
      { t := { t with metadata := some metadata }
        err := none
        trace := ev1 ++ [Event.logInfo "fetched metadata"] }

/-- The body of the loop of `Transcode` for one map entry, lines 130-229; the
clock readings for the logged duration are left out. -/
def transcodeProfile (w : World) (t : Transcoder) (entry : String × VideoProfile) : List Event :=
  let name := entry.1
  let profile := entry.2
  let dir := pathJoin [t.TranscodeDir, name]
  let evDir :=
    [Event.stat dir] ++
      (if w.StatIsNotExist dir then
        [Event.mkdir dir] ++ logIfError "Error creating transcode directory" (w.Mkdir dir)
      else [])
  let args := encoderArgs t w.NumCPU name profile
  let evStart :=
    [Event.start t.FFmpegBinary args] ++ logIfError "Error starting ffmpeg command" (w.Start name)
  let evWait :=
    [Event.wait t.FFmpegBinary args] ++ logIfError "Error waiting for ffmpeg command" (w.Wait name)
  evDir ++ evStart ++ evWait ++ [Event.logInfo "Finished FFmpeg"]

/-- Go `(t *Transcoder) Transcode()`, lines 117-232.  `rangePlaylist` and
`rangeLoop` are the orders in which the `range` of `playlist` (line 266) and the
`range` of line 129 visit `t.VideoProfiles`.  The context of the transcoder is
taken to be a live, non-nil context: a cancelled one shows as failing `Start`
and `Wait` outcomes in the world. -/
def Transcode (sortSlice : SliceSorter) (w : World) (t : Transcoder)
    (rangePlaylist rangeLoop : ProfileMap) : Outcome :=
  let t1 := { t with playlist := playlist sortSlice rangePlaylist "%s/%s.m3u8" }
  let file := pathJoin [t1.TranscodeDir, "playlist.m3u8"]
  let ev1 :=
    [Event.writeFile file t1.playlist] ++ logIfError "Error writing playlist" (w.WriteFile file t1.playlist)
  let r := fetchMetadata w t1
  let ev2 := r.trace ++ logIfError "Error fetching metadata" r.err
  let ev3 := rangeLoop.flatMap (transcodeProfile w r.t)
  { t := r.t, err := none, trace := ev1 ++ ev2 ++ ev3 }

/-- The encoder invocations among the calls of a trace. -/
def encoderStarts (trace : List Event) : List (String × List String) :=
  trace.filterMap fun ev =>
    match ev with
    | Event.start binary args => some (binary, args)
    | _ => none

/-- A call of `ProbeVideo`, the keyframe-specific probe. -/
def Event.isProbeVideo : Event → Bool
  | Event.probeVideo _ _ => true
  | _ => false

/-- A probe result without keyframe timestamps: a `nil` slice or an empty one. -/
def noTimestamps (ts : Option (List Float64)) : Prop := ts = none ∨ ts = some []

/-- A plain path element: not empty, not `.` or `..`, without a slash. -/
def plainElem (s : String) : Prop := s ≠ "" ∧ s ≠ "." ∧ s ≠ ".." ∧ '/' ∉ s.data

instance (s : String) : Decidable (plainElem s) := by
  unfold plainElem
  exact inferInstance

/-! ## The values of `main` -/

/-- The profile map of `main` (`main.go`, lines 16-77), in the order of the source. -/
def mainProfiles : ProfileMap :=
  [("1080p", ⟨1080, 1920, 5000, 32⟩), ("720p", ⟨720, 1280, 2800, 32⟩),
    ("540p", ⟨540, 960, 1800, 32⟩), ("480p", ⟨480, 854, 480, 32⟩),
    ("360p", ⟨360, 640, 800, 32⟩), ("vp9_1080p", ⟨1080, 1920, 5000, 32⟩),
    ("vp9_720p", ⟨720, 1280, 2800, 32⟩), ("vp9_540p", ⟨540, 960, 1800, 32⟩),
    ("vp9_480p", ⟨480, 854, 480, 32⟩), ("vp9_360p", ⟨360, 640, 800, 32⟩)]

/-- The transcoder `NewTranscoder` returns in `main` (lines 79-112) when the
working directory is `/srv` and the generated id is `run1`. -/
def sampleTranscoder : Transcoder :=
  { TrascodingID := "run1"
    MediaDir := ""
    MediaUrl := "https://media.begenuin.com/temp_video/66ab4df2161873b2f738933d_1722943171245.mp4"
    TranscodeDir := "/srv/output/run1"
    VideoProfiles := mainProfiles
    VideoKeyframes := true
    AudioProfile := ⟨0⟩
    Cache := false
    CacheDir := ""
    FFmpegBinary := "ffmpeg"
    FFprobeBinary := "ffprobe"
    playlist := ""
    breakpoints := []
    segmentLength := ⟨false, 1, 0⟩
    segmentOffset := ⟨false, 1, 0⟩
    segmentBufferMin := 1
    segmentBufferMax := 2
    segmentPrefix := "chunk"
    metadata := none }

/-- A world in which every external step fails. -/
def failingWorld : World :=
  { NumCPU := 8
    WriteFile := fun _ _ => some "permission denied"
    ProbeMedia := fun _ _ => .error "exit status 1"
    ProbeVideo := fun _ _ => .error "exit status 1"
    StatIsNotExist := fun _ => true
    Mkdir := fun _ => some "permission denied"
    Start := fun _ => some "executable file not found"
    Wait := fun _ => some "exec: not started" }

/-- A world in which every external step succeeds and neither probe reports
keyframe timestamps. -/
def keyframelessWorld : World :=
  { NumCPU := 8
    WriteFile := fun _ _ => none
    ProbeMedia := fun _ _ => .ok { Video := some { PktPtsTime := none } }
    ProbeVideo := fun _ _ => .ok { PktPtsTime := none }
    StatIsNotExist := fun _ => true
    Mkdir := fun _ => none
    Start := fun _ => none
    Wait := fun _ => none }

/-- The argument `a` is immediately followed by the argument `b` somewhere in
the list. -/
def adjacent (a b : String) (args : List String) : Prop := (a, b) ∈ args.zip args.tail

instance (a b : String) (args : List String) : Decidable (adjacent a b args) := by
  unfold adjacent
  exact inferInstance

/-- A world in which every external step succeeds and the general probe reports a
video stream with an empty list of keyframe timestamps that is not `nil`. -/
def emptyTimestampsWorld : World :=
  { NumCPU := 8
    WriteFile := fun _ _ => none
    ProbeMedia := fun _ _ => .ok { Video := some { PktPtsTime := some [] } }
    ProbeVideo := fun _ _ => .ok { PktPtsTime := some [⟨false, 4, 0⟩] }
    StatIsNotExist := fun _ => true
    Mkdir := fun _ => none
    Start := fun _ => none
    Wait := fun _ => none }

/-! ## Lemmas on strings and lists -/

theorem intercalate_go_data (sep : String) (ls : List String) (acc : String) :
    (String.intercalate.go acc sep ls).data
      = acc.data ++ (ls.map fun l => sep.data ++ l.data).flatten := by
  induction ls generalizing acc with
  | nil => simp [String.intercalate.go]
  | cons a as ih => simp [String.intercalate.go, ih, String.data_append]

theorem intercalate_data (sep : String) (ls : List String) :
    (String.intercalate sep ls).data = List.intercalate sep.data (ls.map String.data) := by
  cases ls with
  | nil => simp [String.intercalate, List.intercalate]
  | cons a as =>
    simp only [String.intercalate, intercalate_go_data, List.intercalate, List.map_cons]
    induction as generalizing a with
    | nil => simp [List.intersperse]
    | cons b bs ih =>
      simp only [List.map_cons, List.flatten_cons, List.intersperse, List.append_assoc]
      have := ih b
      simp only [List.flatten_cons] at this ⊢
      rw [← this]

theorem intercalate_cons_cons (sep x y : List Char) (L : List (List Char)) :
    List.intercalate sep (x :: y :: L) = x ++ sep ++ List.intercalate sep (y :: L) := by
  simp [List.intercalate, List.intersperse]

theorem intercalate_append_ne_nil (sep : List Char) (A B : List (List Char)) (hA : A ≠ [])
    (hB : B ≠ []) :
    List.intercalate sep (A ++ B) = List.intercalate sep A ++ sep ++ List.intercalate sep B := by
  obtain ⟨b, B, rfl⟩ := List.exists_cons_of_ne_nil hB
  induction A with
  | nil => exact absurd rfl hA
  | cons a A ih =>
    cases A with
    | nil =>
      rw [List.singleton_append, intercalate_cons_cons]
      simp [List.intercalate]
    | cons a2 A =>
      have := ih (List.cons_ne_nil _ _)
      rw [List.cons_append, List.cons_append, intercalate_cons_cons, ← List.cons_append, this,
        intercalate_cons_cons]
      simp

theorem intercalate_append_singleton (sep : List Char) (X : List (List Char)) (y : List Char) :
    y <:+ List.intercalate sep (X ++ [y]) := by
  induction X with
  | nil => simp [List.intercalate]
  | cons x X ih =>
    cases X with
    | nil =>
      simp only [List.intercalate, List.cons_append, List.nil_append, List.intersperse,
        List.flatten_cons, List.flatten_nil, List.append_nil]
      exact ⟨x ++ sep, by simp⟩
    | cons x2 X =>
      obtain ⟨pre, hpre⟩ := ih
      refine ⟨x ++ sep ++ pre, ?_⟩
      simp only [List.intercalate, List.cons_append, List.intersperse, List.flatten_cons,
        List.append_assoc] at hpre ⊢
      rw [hpre]
      rfl

theorem splitOn_append_suffix (sep : Char) (suf : List Char) (hs : sep ∉ suf) :
    ∀ B : List Char, ∃ init last, B.splitOn sep = init ++ [last] ∧
      (B ++ suf).splitOn sep = init ++ [last ++ suf] := by
  intro B
  induction B with
  | nil =>
    refine ⟨[], [], rfl, ?_⟩
    simp only [List.nil_append]
    exact List.splitOnP_eq_single _ _ (by
      intro x hx hxs
      rw [beq_iff_eq] at hxs
      exact hs (hxs ▸ hx))
  | cons a B ih =>
    obtain ⟨init, last, h1, h2⟩ := ih
    simp only [List.splitOn] at h1 h2 ⊢
    rw [List.cons_append, List.splitOnP_cons, List.splitOnP_cons, h1, h2]
    by_cases ha : (a == sep) = true
    · rw [if_pos ha, if_pos ha]
      exact ⟨[] :: init, last, rfl, rfl⟩
    · rw [if_neg ha, if_neg ha]
      cases init with
      | nil => exact ⟨[], a :: last, rfl, rfl⟩
      | cons h tl => exact ⟨(a :: h) :: tl, last, rfl, rfl⟩

theorem digitChar_ne_newline (n : Nat) : Nat.digitChar n ≠ '\n' := by
  by_cases h : n < 16
  · interval_cases n <;> decide
  · have h2 : Nat.digitChar n = '*' := by
      unfold Nat.digitChar
      repeat (rw [if_neg (by omega)])
    rw [h2]; decide

theorem toDigitsCore_no_newline (fuel n : Nat) (ds : List Char) (h : '\n' ∉ ds) :
    '\n' ∉ Nat.toDigitsCore 10 fuel n ds := by
  induction fuel generalizing n ds with
  | zero => simpa [Nat.toDigitsCore] using h
  | succ k ih =>
    have hc : ∀ d : List Char, '\n' ∉ d → '\n' ∉ Nat.digitChar (n % 10) :: d := by
      intro d hd hmem
      rcases List.mem_cons.1 hmem with h1 | h1
      · exact digitChar_ne_newline _ h1.symm
      · exact hd h1
    simp only [Nat.toDigitsCore]
    split
    · exact hc _ h
    · exact ih _ _ (hc _ h)

theorem nat_toString_no_newline (n : Nat) : '\n' ∉ (toString n).data := by
  show '\n' ∉ (Nat.repr n).data
  simp only [Nat.repr, List.asString, Nat.toDigits]
  exact toDigitsCore_no_newline _ _ _ (by simp)

theorem int_toString_no_newline (n : Int) : '\n' ∉ (toString n).data := by
  cases n with
  | ofNat m => exact nat_toString_no_newline m
  | negSucc m =>
    show '\n' ∉ ("-" ++ toString (Nat.succ m)).data
    rw [String.data_append]
    intro h
    rcases List.mem_append.1 h with h1 | h1
    · revert h1; decide
    · exact nat_toString_no_newline _ h1

theorem no_newline_append {a b : String} (ha : '\n' ∉ a.data) (hb : '\n' ∉ b.data) :
    '\n' ∉ (a ++ b).data := by
  rw [String.data_append]
  intro h
  rcases List.mem_append.1 h with h1 | h1
  · exact ha h1
  · exact hb h1

theorem lines_join (ls : List String) (hne : ls ≠ []) (h : ∀ l ∈ ls, '\n' ∉ l.data) :
    lines (Join ls "\n") = ls := by
  have hd : (Join ls "\n").data = List.intercalate ['\n'] (ls.map String.data) := by
    simp only [Join, intercalate_data]
  unfold lines
  rw [hd, List.splitOn_intercalate]
  · rw [List.map_map]
    have : (String.mk ∘ String.data) = id := by funext s; rfl
    rw [this, List.map_id]
  · intro l hl
    obtain ⟨s, hs, rfl⟩ := List.mem_map.1 hl
    exact h s hs
  · simpa using hne

theorem hasPrefix_append_left (a b p : String) (h : HasPrefix a p = true) :
    HasPrefix (a ++ b) p = true := by
  simp only [HasPrefix, List.isPrefixOf_iff_prefix, String.data_append] at h ⊢
  exact h.trans (List.prefix_append _ _)

theorem prefix_of_prefix_append_sep (sep : Char) :
    ∀ (t n r : List Char), sep ∉ t → t <+: n ++ sep :: r → t <+: n := by
  intro t
  induction t with
  | nil => intro n r _ _; exact List.nil_prefix
  | cons c t ih =>
    intro n r hsep hp
    cases n with
    | nil =>
      rw [List.nil_append, List.cons_prefix_cons] at hp
      exact absurd hp.1.symm (fun hc => hsep (by rw [hc]; exact List.mem_cons_self _ _))
    | cons d n =>
      rw [List.cons_append, List.cons_prefix_cons] at hp
      rw [List.cons_prefix_cons]
      exact ⟨hp.1, ih n r (fun hm => hsep (List.mem_cons_of_mem _ hm)) hp.2⟩

theorem sprintf_segment_name (name : String) :
    Sprintf "%s/%s.m3u8" [name, name] = name ++ "/" ++ name ++ ".m3u8" := by
  apply String.ext
  simp [Sprintf, sprintfAux, sprintfExtra, String.data_append]

theorem sprintf_segment_pattern (p : String) :
    Sprintf "%s-%%05d.ts" [p] = p ++ "-%05d.ts" := by
  apply String.ext
  simp [Sprintf, sprintfAux, sprintfExtra, String.data_append]

theorem sprintf_variant_playlist (name : String) :
    Sprintf "%s.m3u8" [name] = name ++ ".m3u8" := by
  apply String.ext
  simp [Sprintf, sprintfAux, sprintfExtra, String.data_append]

theorem exists_perm_of_perm_map {α β : Type} (f : α → β) :
    ∀ (ps : List α) (l : List β), l.Perm (ps.map f) → ∃ qs : List α, qs.Perm ps ∧ l = qs.map f := by
  intro ps
  induction ps with
  | nil =>
    intro l hl
    exact ⟨[], List.Perm.refl _, by simpa using hl.eq_nil⟩
  | cons a ps ih =>
    intro l hl
    have hmem : f a ∈ l := hl.symm.subset (by simp)
    obtain ⟨l1, l2, rfl⟩ := List.append_of_mem hmem
    have h2 : (l1 ++ l2).Perm (ps.map f) := by
      have h3 : (f a :: (l1 ++ l2)).Perm (f a :: ps.map f) :=
        (List.perm_middle.symm).trans (by simpa using hl)
      exact (List.perm_cons _).1 h3
    obtain ⟨qs, hq, hqe⟩ := ih _ h2
    obtain ⟨q1, q2, rfl, hq1, hq2⟩ := List.map_eq_append_iff.1 hqe.symm
    refine ⟨q1 ++ a :: q2, List.perm_middle.trans (List.Perm.cons a hq), ?_⟩
    simp [hq1, hq2]

theorem eq_of_map_eq_of_inj {α β : Type} (f : α → β) :
    ∀ (l1 l2 : List α), l1.map f = l2.map f →
      (∀ x ∈ l1, ∀ y ∈ l2, f x = f y → x = y) → l1 = l2 := by
  intro l1
  induction l1 with
  | nil => intro l2 h _; simpa using h.symm
  | cons a l1 ih =>
    intro l2 h hinj
    cases l2 with
    | nil => simp at h
    | cons b l2 =>
      simp only [List.map_cons, List.cons.injEq] at h
      have hab : a = b := hinj a (by simp) b (by simp) h.1
      have ht : l1 = l2 := ih l2 h.2 fun x hx y hy hxy =>
        hinj x (List.mem_cons_of_mem _ hx) y (List.mem_cons_of_mem _ hy) hxy
      rw [hab, ht]

/-! ## The insertion sort meets the contract of `sort.Slice` -/

theorem insertBack_perm {α : Type} (less : α → α → Bool) (x : α) (rp : List α) :
    (insertBack less x rp).Perm (x :: rp) := by
  induction rp with
  | nil => exact List.Perm.refl _
  | cons y rp ih =>
    simp only [insertBack]
    split
    · exact ((List.Perm.cons y ih).trans (List.Perm.swap x y rp))
    · exact List.Perm.refl _

theorem insertBack_sorted (x : Layer) (rp : List Layer)
    (h : rp.Pairwise fun a b => b.Bitrate ≤ a.Bitrate) :
    (insertBack layerLess x rp).Pairwise fun a b => b.Bitrate ≤ a.Bitrate := by
  induction rp with
  | nil => simp [insertBack]
  | cons y rp ih =>
    rw [List.pairwise_cons] at h
    simp only [insertBack]
    by_cases hxy : layerLess x y = true
    · rw [if_pos hxy, List.pairwise_cons]
      refine ⟨?_, ih h.2⟩
      intro z hz
      rcases List.mem_cons.1 ((insertBack_perm layerLess x rp).subset hz) with hzx | hzr
      · subst hzx
        have : z.Bitrate < y.Bitrate := by simpa [layerLess] using hxy
        omega
      · exact h.1 z hzr
    · rw [if_neg hxy, List.pairwise_cons]
      have hyx : y.Bitrate ≤ x.Bitrate := by
        have : ¬ x.Bitrate < y.Bitrate := by simpa [layerLess] using hxy
        omega
      refine ⟨?_, List.pairwise_cons.2 h⟩
      intro z hz
      rcases List.mem_cons.1 hz with hzy | hzr
      · subst hzy; exact hyx
      · exact le_trans (h.1 z hzr) hyx

theorem foldl_insertBack (l : List Layer) (rp : List Layer)
    (h : rp.Pairwise fun a b => b.Bitrate ≤ a.Bitrate) :
    (l.foldl (fun rp x => insertBack layerLess x rp) rp).Perm (l.reverse ++ rp) ∧
      (l.foldl (fun rp x => insertBack layerLess x rp) rp).Pairwise
        fun a b => b.Bitrate ≤ a.Bitrate := by
  induction l generalizing rp with
  | nil => exact ⟨by simp, h⟩
  | cons x l ih =>
    obtain ⟨hp, hs⟩ := ih (insertBack layerLess x rp) (insertBack_sorted x rp h)
    refine ⟨hp.trans ?_, hs⟩
    simp only [List.reverse_cons, List.append_assoc, List.singleton_append]
    exact List.Perm.append_left _ (insertBack_perm layerLess x rp)

/-- Go's insertion sort is a `sort.Slice`. -/
theorem insertionSortLessFunc_sortsSlice : SortsSlice insertionSortLessFunc := by
  intro l
  obtain ⟨hp, hs⟩ := foldl_insertBack l [] List.Pairwise.nil
  constructor
  · refine (List.reverse_perm _).trans (hp.trans ?_)
    simp
  · unfold insertionSortLessFunc
    rw [List.pairwise_reverse]
    refine hs.imp ?_
    intro a b hab
    simp only [layerLess, decide_eq_false_iff_not, not_lt]
    exact hab

/-! ## Lemmas on `playlist` -/

/-- The sorted `layers` of `playlist` are the layers of the map entries in a
bitrate-ascending order. -/
theorem playlistLayers_spec (sortSlice : SliceSorter) (h : SortsSlice sortSlice)
    (profiles : ProfileMap) (segmentNameFmt : String) :
    ∃ qs : ProfileMap, qs.Perm profiles ∧
      playlistLayers sortSlice profiles segmentNameFmt = qs.map (playlistLayer segmentNameFmt) ∧
      (qs.map fun e => e.2.Bitrate).Sorted (· ≤ ·) := by
  obtain ⟨hp, hs⟩ := h (profiles.map (playlistLayer segmentNameFmt))
  obtain ⟨qs, hq, hqe⟩ := exists_perm_of_perm_map _ _ _ hp
  refine ⟨qs, hq, hqe, ?_⟩
  rw [hqe, List.pairwise_map] at hs
  rw [List.Sorted, List.pairwise_map]
  refine hs.imp ?_
  intro a b hab
  have : ¬ b.2.Bitrate < a.2.Bitrate := by simpa [layerLess, playlistLayer] using hab
  omega

theorem foldl_entries (layers : List Layer) (init : List String) :
    layers.foldl (fun acc profile => acc ++ profile.Entries) init
      = init ++ layers.flatMap Layer.Entries := by
  induction layers generalizing init with
  | nil => simp
  | cons a l ih => simp [ih, List.flatMap_cons]

/-- The text of `playlist`: the header line, then the entries of the sorted layers. -/
theorem playlist_eq (sortSlice : SliceSorter) (profiles : ProfileMap) (segmentNameFmt : String) :
    playlist sortSlice profiles segmentNameFmt
      = Join ("#EXTM3U" :: (playlistLayers sortSlice profiles segmentNameFmt).flatMap
          Layer.Entries) "\n" := by
  simp [playlist, foldl_entries]

/-- Two visits of the same map give layers with the same bitrates in the same
order, whatever the sorter does with ties. -/
theorem playlistLayers_bitrates (sortSlice : SliceSorter) (h : SortsSlice sortSlice)
    (order1 order2 : ProfileMap) (hp : order1.Perm order2) (segmentNameFmt : String) :
    (playlistLayers sortSlice order1 segmentNameFmt).map Layer.Bitrate
      = (playlistLayers sortSlice order2 segmentNameFmt).map Layer.Bitrate := by
  obtain ⟨q1, hq1, he1, hs1⟩ := playlistLayers_spec sortSlice h order1 segmentNameFmt
  obtain ⟨q2, hq2, he2, hs2⟩ := playlistLayers_spec sortSlice h order2 segmentNameFmt
  have hperm : (q1.map fun e => e.2.Bitrate).Perm (q2.map fun e => e.2.Bitrate) :=
    ((hq1.trans hp).trans hq2.symm).map _
  have := List.eq_of_perm_of_sorted hperm hs1 hs2
  rw [he1, he2]
  simpa [List.map_map, Function.comp_def, playlistLayer] using this

/-- With pairwise distinct bitrates the sorted layers do not depend on the order
of the visit. -/
theorem playlistLayers_order_irrelevant (sortSlice : SliceSorter) (h : SortsSlice sortSlice)
    (order1 order2 : ProfileMap) (hp : order1.Perm order2)
    (hd : (order1.map fun e => e.2.Bitrate).Nodup) (segmentNameFmt : String) :
    playlistLayers sortSlice order1 segmentNameFmt
      = playlistLayers sortSlice order2 segmentNameFmt := by
  obtain ⟨q1, hq1, he1, hs1⟩ := playlistLayers_spec sortSlice h order1 segmentNameFmt
  obtain ⟨q2, hq2, he2, hs2⟩ := playlistLayers_spec sortSlice h order2 segmentNameFmt
  have hq12 : q1.Perm q2 := (hq1.trans hp).trans hq2.symm
  have hmap := List.eq_of_perm_of_sorted (hq12.map fun e => e.2.Bitrate) hs1 hs2
  have hd1 : (q1.map fun e => e.2.Bitrate).Nodup := (hq1.map _).nodup_iff.2 hd
  have hq : q1 = q2 := by
    refine eq_of_map_eq_of_inj _ q1 q2 hmap ?_
    intro x hx y hy hxy
    exact List.inj_on_of_nodup_map hd1 hx (hq12.symm.subset hy) hxy
  rw [he1, he2, hq]

theorem playlistLayer_entries (entry : String × VideoProfile) :
    (playlistLayer "%s/%s.m3u8" entry).Entries = variantLines entry := by
  simp only [playlistLayer, variantLines, sprintf_segment_name]
  rfl

theorem flatMap_entries (qs : ProfileMap) :
    (qs.map (playlistLayer "%s/%s.m3u8")).flatMap Layer.Entries = qs.flatMap variantLines := by
  induction qs with
  | nil => rfl
  | cons e qs ih =>
    simp only [List.map_cons, List.flatMap_cons, ih, playlistLayer_entries]

/-- A visit of the map in any order gives the header line and then the variant
lines of the entries in a bitrate-ascending order. -/
theorem playlist_spec (sortSlice : SliceSorter) (h : SortsSlice sortSlice) (order : ProfileMap) :
    ∃ qs : ProfileMap, qs.Perm order ∧ (qs.map fun e => e.2.Bitrate).Sorted (· ≤ ·) ∧
      playlistLayers sortSlice order "%s/%s.m3u8" = qs.map (playlistLayer "%s/%s.m3u8") ∧
      playlist sortSlice order "%s/%s.m3u8" = Join ("#EXTM3U" :: qs.flatMap variantLines) "\n" := by
  obtain ⟨qs, hq, he, hs⟩ := playlistLayers_spec sortSlice h order "%s/%s.m3u8"
  exact ⟨qs, hq, hs, he, by rw [playlist_eq, he, flatMap_entries]⟩

/-- When the entries are listed in strictly ascending bitrate, that listing is
the order of the layers, whatever order the map is visited in. -/
theorem playlistLayers_of_sorted (sortSlice : SliceSorter) (h : SortsSlice sortSlice)
    (order ps : ProfileMap) (hp : order.Perm ps)
    (hs : (ps.map fun e => e.2.Bitrate).Sorted (· < ·)) (segmentNameFmt : String) :
    playlistLayers sortSlice order segmentNameFmt = ps.map (playlistLayer segmentNameFmt) := by
  obtain ⟨q, hq, he, hsq⟩ := playlistLayers_spec sortSlice h order segmentNameFmt
  have hqp : q.Perm ps := hq.trans hp
  have hle : (ps.map fun e => e.2.Bitrate).Sorted (· ≤ ·) := hs.imp fun hab => le_of_lt hab
  have hmap := List.eq_of_perm_of_sorted (hqp.map fun e => e.2.Bitrate) hsq hle
  have hd : (ps.map fun e => e.2.Bitrate).Nodup := hs.imp fun hab => ne_of_lt hab
  have hqe : q = ps := by
    refine eq_of_map_eq_of_inj _ q ps hmap ?_
    intro x hx y hy hxy
    exact List.inj_on_of_nodup_map hd (hqp.subset hx) hy hxy
  rw [he, hqe]

theorem variantLines_no_newline (entry : String × VideoProfile) (hn : '\n' ∉ entry.1.data) :
    ∀ l ∈ variantLines entry, '\n' ∉ l.data := by
  have hc : '\n' ∉ (if HasPrefix entry.1 "vp9" then "vp09.00.10.08" else "avc1.42E01E").data := by
    split <;> decide
  intro l hl
  simp only [variantLines, List.mem_cons, List.mem_singleton, List.not_mem_nil, or_false] at hl
  rcases hl with rfl | rfl
  · repeat' apply no_newline_append
    all_goals first | exact hn | exact hc | exact int_toString_no_newline _ | decide
  · repeat' apply no_newline_append
    all_goals first | exact hn | decide

theorem variantLines_count (entry : String × VideoProfile)
    (hn : HasPrefix entry.1 "#EXT-X-STREAM-INF" = false) :
    (variantLines entry).countP (fun l => HasPrefix l "#EXT-X-STREAM-INF") = 1 := by
  have h1 : HasPrefix ("#EXT-X-STREAM-INF:BANDWIDTH=" ++ toString entry.2.Bitrate ++ ",CODECS=\"" ++
      (if HasPrefix entry.1 "vp9" then "vp09.00.10.08" else "avc1.42E01E") ++
      ",mp4a.40.2\",RESOLUTION=" ++ toString entry.2.Width ++ "x" ++ toString entry.2.Height ++
      ",NAME=" ++ entry.1) "#EXT-X-STREAM-INF" = true := by
    repeat apply hasPrefix_append_left
    decide
  have h2 : HasPrefix (entry.1 ++ "/" ++ entry.1 ++ ".m3u8") "#EXT-X-STREAM-INF" = false := by
    rw [Bool.eq_false_iff]
    intro hp
    have hn2 : ¬ HasPrefix entry.1 "#EXT-X-STREAM-INF" = true := by simp [hn]
    apply hn2
    simp only [HasPrefix, List.isPrefixOf_iff_prefix, String.data_append] at hp ⊢
    simp only [List.append_assoc, List.singleton_append] at hp
    exact prefix_of_prefix_append_sep '/' _ _ _ (by decide) hp
  simp only [variantLines, List.countP_cons, List.countP_nil, h1, h2]
  rfl

theorem flatMap_variantLines_count (qs : ProfileMap)
    (hn : ∀ e ∈ qs, HasPrefix e.1 "#EXT-X-STREAM-INF" = false) :
    (qs.flatMap variantLines).countP (fun l => HasPrefix l "#EXT-X-STREAM-INF") = qs.length := by
  induction qs with
  | nil => rfl
  | cons e qs ih =>
    rw [List.flatMap_cons, List.countP_append, variantLines_count e (hn e (List.mem_cons_self _ _)),
      ih fun x hx => hn x (List.mem_cons_of_mem _ hx), List.length_cons]
    omega

theorem variantLines_ne_empty (entry : String × VideoProfile) : "" ∉ variantLines entry := by
  intro h
  simp only [variantLines, List.mem_cons, List.mem_singleton, List.not_mem_nil, or_false] at h
  rcases h with h | h
  · have := congrArg (fun s => s.data.length) h
    simp [String.data_append] at this
  · have := congrArg (fun s => s.data.length) h
    simp [String.data_append] at this
    omega

/-! ## `path.Join` keeps the last element -/

/-- A path whose last element ends in `suf` (at least three characters, no
slash) keeps that ending through `path.Clean`. -/
theorem pathClean_suffix (p : String) (B suf : List Char) (hp : p.data = B ++ suf)
    (hs : '/' ∉ suf) (hlen : 3 ≤ suf.length) : suf <:+ (pathClean p).data := by
  obtain ⟨init, last, _, h2⟩ := splitOn_append_suffix '/' suf hs B
  have hne : p ≠ "" := by
    intro h
    rw [h] at hp
    have := congrArg List.length hp
    simp at this
    omega
  have hlast : ∀ rooted out, cleanStep rooted out (last ++ suf) = (last ++ suf) :: out := by
    intro rooted out
    have hl : 3 ≤ (last ++ suf).length := by rw [List.length_append]; omega
    unfold cleanStep
    rw [if_neg, if_neg]
    · intro h
      rw [h] at hl
      simp at hl
    · intro h
      rcases h with h | h <;> rw [h] at hl <;> simp at hl
  have hout : ∀ rooted, ∃ out, (p.data.splitOn '/').foldl (cleanStep rooted) []
      = (last ++ suf) :: out := by
    intro rooted
    rw [hp, h2, List.foldl_append]
    exact ⟨_, hlast _ _⟩
  have hbody : ∀ out : List (List Char),
      suf <:+ List.intercalate ['/'] ((last ++ suf) :: out).reverse := by
    intro out
    rw [List.reverse_cons]
    exact (List.suffix_append last suf).trans (intercalate_append_singleton _ _ _)
  unfold pathClean
  rw [if_neg hne]
  simp only
  split
  · obtain ⟨out, ho⟩ := hout true
    rename_i hr
    rw [hr] at *
    rw [String.data_append]
    have := hbody out
    rw [← ho] at this
    exact this.trans (List.suffix_append _ _)
  · rename_i hr
    obtain ⟨out, ho⟩ := hout (decide (p.data.head? = some '/'))
    rw [if_neg (by rw [ho]; exact List.cons_ne_nil _ _)]
    have := hbody out
    rw [← ho] at this
    exact this

/-- The result of `path.Join` ends as its last element ends, when that ending
has at least three characters and no slash. -/
theorem pathJoin_suffix (es : List String) (file : String) (F suf : List Char)
    (hf : file.data = F ++ suf) (hs : '/' ∉ suf) (hlen : 3 ≤ suf.length) :
    suf <:+ (pathJoin (es ++ [file])).data := by
  have hfne : file ≠ "" := by
    intro h
    rw [h] at hf
    have := congrArg List.length hf
    simp at this
    omega
  have hfilter : (es ++ [file]).filter (fun e => decide (e ≠ ""))
      = es.filter (fun e => decide (e ≠ "")) ++ [file] := by
    rw [List.filter_append]
    simp [hfne]
  have hdata : ∃ B, (String.intercalate "/" (es.filter (fun e => decide (e ≠ "")) ++ [file])).data
      = B ++ suf := by
    rw [intercalate_data, List.map_append]
    obtain ⟨pre, hpre⟩ := intercalate_append_singleton ("/" : String).data
      ((es.filter (fun e => decide (e ≠ ""))).map String.data) file.data
    refine ⟨pre ++ F, ?_⟩
    simp only [List.map_cons, List.map_nil]
    rw [← hpre, hf, List.append_assoc]
  obtain ⟨B, hB⟩ := hdata
  have hclean := pathClean_suffix _ B suf hB hs hlen
  unfold pathJoin
  rw [hfilter]
  split
  · rename_i heq
    exact absurd heq (by simp)
  · exact hclean

theorem foldl_cleanStep_plain (rooted : Bool) (comps : List (List Char))
    (h : ∀ c ∈ comps, c ≠ [] ∧ c ≠ ['.'] ∧ c ≠ ['.', '.']) (out : List (List Char)) :
    comps.foldl (cleanStep rooted) out = comps.reverse ++ out := by
  induction comps generalizing out with
  | nil => rfl
  | cons c comps ih =>
    obtain ⟨h1, h2, h3⟩ := h c (List.mem_cons_self _ _)
    have hstep : cleanStep rooted out c = c :: out := by
      unfold cleanStep
      rw [if_neg (by rintro (h | h); exact h1 h; exact h2 h), if_neg h3]
    rw [List.foldl_cons, hstep, ih (fun x hx => h x (List.mem_cons_of_mem _ hx))]
    simp

theorem plainElem_data (s : String) (h : plainElem s) :
    s.data ≠ [] ∧ s.data ≠ ['.'] ∧ s.data ≠ ['.', '.'] ∧ '/' ∉ s.data := by
  obtain ⟨h1, h2, h3, h4⟩ := h
  refine ⟨?_, ?_, ?_, h4⟩
  · intro hd; exact h1 (String.ext hd)
  · intro hd; exact h2 (String.ext hd)
  · intro hd; exact h3 (String.ext hd)

/-- On plain elements under the root `path.Join` is the plain concatenation
with slashes. -/
theorem pathJoin_plain (dirs : List String) (name file : String) (hd : dirs ≠ [])
    (hdirs : ∀ d ∈ dirs, plainElem d) (hname : plainElem name) (hfile : plainElem file) :
    pathJoin ["/" ++ String.intercalate "/" dirs, name, file]
      = "/" ++ String.intercalate "/" dirs ++ "/" ++ name ++ "/" ++ file := by
  have hcomps : ∀ c ∈ (dirs ++ [name, file]).map String.data,
      c ≠ [] ∧ c ≠ ['.'] ∧ c ≠ ['.', '.'] ∧ '/' ∉ c := by
    intro c hc
    obtain ⟨s, hs, rfl⟩ := List.mem_map.1 hc
    rcases List.mem_append.1 hs with h | h
    · exact plainElem_data s (hdirs s h)
    · simp only [List.mem_cons, List.mem_singleton, List.not_mem_nil, or_false] at h
      rcases h with rfl | rfl
      · exact plainElem_data _ hname
      · exact plainElem_data _ hfile
  have hsl : ("/" : String).data = ['/'] := rfl
  have hdm : dirs.map String.data ≠ [] := by simpa using hd
  have htarget : ("/" ++ String.intercalate "/" dirs ++ "/" ++ name ++ "/" ++ file).data
      = '/' :: List.intercalate ['/'] ((dirs ++ [name, file]).map String.data) := by
    simp only [String.data_append, intercalate_data, hsl, List.map_append, List.map_cons,
      List.map_nil]
    rw [intercalate_append_ne_nil _ _ _ hdm (List.cons_ne_nil _ _), intercalate_cons_cons]
    simp [List.intercalate]
  have hjoin : (String.intercalate "/" ["/" ++ String.intercalate "/" dirs, name, file]).data
      = '/' :: List.intercalate ['/'] ((dirs ++ [name, file]).map String.data) := by
    rw [← htarget]
    simp [String.intercalate, String.intercalate.go, String.data_append]
  have hsplit : (List.intercalate ['/'] ([] :: (dirs ++ [name, file]).map String.data)).splitOn '/'
      = [] :: (dirs ++ [name, file]).map String.data := by
    refine List.splitOn_intercalate _ '/' ?_ (List.cons_ne_nil _ _)
    intro l hl
    rcases List.mem_cons.1 hl with rfl | hl
    · simp
    · exact (hcomps l hl).2.2.2
  have hcons : '/' :: List.intercalate ['/'] ((dirs ++ [name, file]).map String.data)
      = List.intercalate ['/'] ([] :: (dirs ++ [name, file]).map String.data) := by
    obtain ⟨c, cs, hc⟩ := List.exists_cons_of_ne_nil
      (show (dirs ++ [name, file]).map String.data ≠ [] by simp)
    rw [hc, intercalate_cons_cons]
    simp
  have hfilter : (["/" ++ String.intercalate "/" dirs, name, file] : List String).filter
      (fun e => decide (e ≠ "")) = ["/" ++ String.intercalate "/" dirs, name, file] := by
    have h1 : "/" ++ String.intercalate "/" dirs ≠ "" := by
      intro h
      have := congrArg (fun s => s.data.length) h
      simp [String.data_append] at this
    simp [h1, hname.1, hfile.1]
  have hpne : String.intercalate "/" ["/" ++ String.intercalate "/" dirs, name, file] ≠ "" := by
    intro h
    have := congrArg String.data h
    rw [hjoin] at this
    simp at this
  unfold pathJoin
  rw [hfilter]
  simp only
  unfold pathClean
  rw [if_neg hpne, hjoin]
  simp only [List.head?_cons, if_true]
  rw [hcons, hsplit, List.foldl_cons]
  have h0 : cleanStep (decide True) [] [] = [] := by simp [cleanStep]
  rw [h0, foldl_cleanStep_plain _ _ (fun c hc => ⟨(hcomps c hc).1, (hcomps c hc).2.1,
    (hcomps c hc).2.2.1⟩), List.append_nil, List.reverse_reverse]
  apply String.ext
  rw [htarget]
  simp [String.data_append, hsl]

/-! ## Rounding to a double -/

theorem bitLengthAux_pos (fuel m : Nat) (hm : m ≠ 0) (hf : m ≤ fuel) :
    1 ≤ bitLengthAux fuel m := by
  cases fuel with
  | zero => omega
  | succ k =>
    unfold bitLengthAux
    rw [if_neg hm]
    omega

theorem bitLengthAux_le (fuel : Nat) :
    ∀ m : Nat, m ≠ 0 → m ≤ fuel → 2 ^ (bitLengthAux fuel m - 1) ≤ m := by
  induction fuel with
  | zero => intro m hm hf; omega
  | succ k ih =>
    intro m hm hf
    unfold bitLengthAux
    rw [if_neg hm, Nat.add_sub_cancel]
    by_cases h2 : m / 2 = 0
    · have h0 : bitLengthAux k (m / 2) = 0 := by
        rw [h2]
        cases k <;> simp [bitLengthAux]
      rw [h0]
      simp
      omega
    · have hk : m / 2 ≤ k := by omega
      have h1 := bitLengthAux_pos k (m / 2) h2 hk
      have h3 := ih (m / 2) h2 hk
      have h4 : 2 ^ bitLengthAux k (m / 2) = 2 * 2 ^ (bitLengthAux k (m / 2) - 1) := by
        rw [← pow_succ']
        congr 1
        omega
      rw [h4]
      omega

theorem bitLength_le (m : Nat) (hm : m ≠ 0) : 2 ^ (bitLength m - 1) ≤ m :=
  bitLengthAux_le m m hm (le_refl m)

/-- The rounded mantissa is within half a unit in the last place, and 2^-53 of
the number rounded, in natural numbers: with `r = Float64.round neg m e` and
`s` the number of binary digits cut, `r.exp = e + s` and
`|r.mant * 2^s - m| * 2^53 ≤ m`. -/
theorem round_nat (neg : Bool) (m : Nat) (e : Int) :
    ∃ s : Nat, (Float64.round neg m e).exp = e + s ∧ (Float64.round neg m e).neg = neg ∧
      (Float64.round neg m e).mant * 2 ^ s * 2 ^ 53 ≤ m * (2 ^ 53 + 1) ∧
      m * (2 ^ 53 - 1) ≤ (Float64.round neg m e).mant * 2 ^ s * 2 ^ 53 := by
  unfold Float64.round
  by_cases h : bitLength m ≤ 53
  · rw [if_pos h]
    refine ⟨0, by simp, rfl, ?_, ?_⟩
    · simp only [pow_zero, mul_one]
      nlinarith
    · simp only [pow_zero, mul_one]
      have : m * (2 ^ 53 - 1) ≤ m * 2 ^ 53 := Nat.mul_le_mul_left _ (by norm_num)
      exact this
  · rw [if_neg h]
    have hm : m ≠ 0 := by
      intro h0
      apply h
      rw [h0]
      decide
    have hbl := bitLength_le m hm
    set s := bitLength m - 53 with hs
    have hs1 : 1 ≤ s := by omega
    have hpow : 2 ^ (bitLength m - 1) = 2 ^ (s - 1) * 2 ^ 53 := by
      rw [← pow_add]
      congr 1
      omega
    have h2s : 2 ^ s = 2 * 2 ^ (s - 1) := by
      rw [← pow_succ']
      congr 1
      omega
    have hmod : m % 2 ^ s < 2 ^ s := Nat.mod_lt _ (by positivity)
    have hdm : m / 2 ^ s * 2 ^ s + m % 2 ^ s = m := Nat.div_add_mod' m (2 ^ s)
    have hup : (m / 2 ^ s + 1) * 2 ^ s = m / 2 ^ s * 2 ^ s + 2 ^ s := by ring
    rw [hpow] at hbl
    refine ⟨s, by simp, rfl, ?_, ?_⟩
    · simp only
      split
      · rename_i hc
        have hr : 2 ^ (s - 1) ≤ m % 2 ^ s := by
          rcases hc with hc | hc
          · exact le_of_lt hc
          · exact le_of_eq hc.1.symm
        rw [hup]
        generalize m / 2 ^ s * 2 ^ s = A at *
        generalize m % 2 ^ s = R at *
        generalize 2 ^ s = T at *
        generalize 2 ^ (s - 1) = P at *
        omega
      · generalize m / 2 ^ s * 2 ^ s = A at *
        generalize m % 2 ^ s = R at *
        omega
    · simp only
      split
      · rw [hup]
        generalize m / 2 ^ s * 2 ^ s = A at *
        generalize m % 2 ^ s = R at *
        generalize 2 ^ s = T at *
        omega
      · rename_i hc
        have hr : m % 2 ^ s ≤ 2 ^ (s - 1) := by
          by_contra hgt
          exact hc (Or.inl (lt_of_not_ge hgt))
        generalize m / 2 ^ s * 2 ^ s = A at *
        generalize m % 2 ^ s = R at *
        generalize 2 ^ (s - 1) = P at *
        omega

theorem round_toRat (m : Nat) (e : Int) :
    (m : ℚ) * 2 ^ e * (1 - 1 / 2 ^ 53) ≤ (Float64.round false m e).toRat ∧
      (Float64.round false m e).toRat ≤ (m : ℚ) * 2 ^ e * (1 + 1 / 2 ^ 53) := by
  obtain ⟨s, hexp, hneg, hup, hlo⟩ := round_nat false m e
  have he : (0 : ℚ) < 2 ^ e := by positivity
  have hval : (Float64.round false m e).toRat
      = ((Float64.round false m e).mant : ℚ) * 2 ^ s * 2 ^ e := by
    unfold Float64.toRat
    rw [hneg, hexp, zpow_add₀ (by norm_num : (2 : ℚ) ≠ 0), zpow_natCast]
    simp only [Bool.false_eq_true, if_false]
    ring
  have hupq : (((Float64.round false m e).mant : ℚ) * 2 ^ s) * 2 ^ 53 ≤ (m : ℚ) * (2 ^ 53 + 1) := by
    exact_mod_cast hup
  have hloq : (m : ℚ) * (2 ^ 53 - 1) ≤ (((Float64.round false m e).mant : ℚ) * 2 ^ s) * 2 ^ 53 := by
    have h53 : ((2 ^ 53 - 1 : Nat) : ℚ) = 2 ^ 53 - 1 := by norm_num
    have : ((m * (2 ^ 53 - 1) : Nat) : ℚ) ≤ (((Float64.round false m e).mant * 2 ^ s * 2 ^ 53 : Nat) : ℚ) := by
      exact_mod_cast hlo
    rw [Nat.cast_mul, h53] at this
    rw [← h53]
    rw [h53]
    exact_mod_cast this
  rw [hval]
  generalize ((Float64.round false m e).mant : ℚ) * 2 ^ s = v at hupq hloq
  constructor
  · have h1 : (m : ℚ) * (1 - 1 / 2 ^ 53) ≤ v := by
      have : (m : ℚ) * (1 - 1 / 2 ^ 53) = (m : ℚ) * (2 ^ 53 - 1) / 2 ^ 53 := by ring
      rw [this, div_le_iff₀ (by positivity)]
      exact hloq
    calc (m : ℚ) * 2 ^ e * (1 - 1 / 2 ^ 53) = (m : ℚ) * (1 - 1 / 2 ^ 53) * 2 ^ e := by ring
      _ ≤ v * 2 ^ e := mul_le_mul_of_nonneg_right h1 (le_of_lt he)
  · have h1 : v ≤ (m : ℚ) * (1 + 1 / 2 ^ 53) := by
      have : (m : ℚ) * (1 + 1 / 2 ^ 53) = (m : ℚ) * (2 ^ 53 + 1) / 2 ^ 53 := by ring
      rw [this, le_div_iff₀ (by positivity)]
      exact hupq
    calc v * 2 ^ e ≤ (m : ℚ) * (1 + 1 / 2 ^ 53) * 2 ^ e :=
          mul_le_mul_of_nonneg_right h1 (le_of_lt he)
      _ = (m : ℚ) * 2 ^ e * (1 + 1 / 2 ^ 53) := by ring

theorem ofInt_neg_false (b : Int) (hb : 0 < b) : (Float64.ofInt b).neg = false := by
  obtain ⟨s, _, hneg, _, _⟩ := round_nat (decide (b < 0)) b.natAbs 0
  unfold Float64.ofInt
  rw [hneg]
  simp
  omega

theorem ofInt_toRat (b : Int) (hb : 0 < b) :
    (b : ℚ) * (1 - 1 / 2 ^ 53) ≤ (Float64.ofInt b).toRat ∧
      (Float64.ofInt b).toRat ≤ (b : ℚ) * (1 + 1 / 2 ^ 53) := by
  have hd : decide (b < 0) = false := by simp; omega
  have hcast : ((b.natAbs : Nat) : ℚ) = (b : ℚ) := by
    have h1 : ((b.natAbs : Nat) : Int) = b := Int.natAbs_of_nonneg (le_of_lt hb)
    have h2 : (((b.natAbs : Nat) : Int) : ℚ) = (b : ℚ) := by rw [h1]
    rw [← h2, Int.cast_natCast]
  have := round_toRat b.natAbs 0
  unfold Float64.ofInt
  rw [hd]
  simpa [hcast] using this

theorem mul_toRat (x y : Float64) (hx : x.neg = false) (hy : y.neg = false) :
    x.toRat * y.toRat * (1 - 1 / 2 ^ 53) ≤ (Float64.mul x y).toRat ∧
      (Float64.mul x y).toRat ≤ x.toRat * y.toRat * (1 + 1 / 2 ^ 53) := by
  have hprod : ((x.mant * y.mant : Nat) : ℚ) * 2 ^ (x.exp + y.exp) = x.toRat * y.toRat := by
    unfold Float64.toRat
    rw [hx, hy, zpow_add₀ (by norm_num : (2 : ℚ) ≠ 0)]
    simp only [Bool.false_eq_true, if_false]
    push_cast
    ring
  have := round_toRat (x.mant * y.mant) (x.exp + y.exp)
  unfold Float64.mul
  rw [hx, hy]
  rw [hprod] at this
  exact this

theorem toRat_nonneg (x : Float64) (hx : x.neg = false) : 0 ≤ x.toRat := by
  unfold Float64.toRat
  rw [hx]
  simp only [Bool.false_eq_true, if_false]
  positivity

/-- The product `float64(b) * c` lies within a factor `(1 ± 2^-53)^2` of the exact
product, for a positive `int` and a positive constant. -/
theorem scaled_bitrate (b : Int) (hb : 0 < b) (c : Float64) (hc : c.neg = false) :
    (b : ℚ) * c.toRat * (1 - 1 / 2 ^ 53) ^ 2 ≤ (Float64.mul (Float64.ofInt b) c).toRat ∧
      (Float64.mul (Float64.ofInt b) c).toRat ≤ (b : ℚ) * c.toRat * (1 + 1 / 2 ^ 53) ^ 2 := by
  obtain ⟨h1, h2⟩ := ofInt_toRat b hb
  obtain ⟨h3, h4⟩ := mul_toRat (Float64.ofInt b) c (ofInt_neg_false b hb) hc
  have hc0 := toRat_nonneg c hc
  have hlo : (0 : ℚ) ≤ 1 - 1 / 2 ^ 53 := by norm_num
  have hhi : (0 : ℚ) ≤ 1 + 1 / 2 ^ 53 := by norm_num
  constructor
  · calc (b : ℚ) * c.toRat * (1 - 1 / 2 ^ 53) ^ 2
        = (b : ℚ) * (1 - 1 / 2 ^ 53) * c.toRat * (1 - 1 / 2 ^ 53) := by ring
      _ ≤ (Float64.ofInt b).toRat * c.toRat * (1 - 1 / 2 ^ 53) :=
          mul_le_mul_of_nonneg_right (mul_le_mul_of_nonneg_right h1 hc0) hlo
      _ ≤ _ := h3
  · calc (Float64.mul (Float64.ofInt b) c).toRat
        ≤ (Float64.ofInt b).toRat * c.toRat * (1 + 1 / 2 ^ 53) := h4
      _ ≤ (b : ℚ) * (1 + 1 / 2 ^ 53) * c.toRat * (1 + 1 / 2 ^ 53) :=
          mul_le_mul_of_nonneg_right (mul_le_mul_of_nonneg_right h2 hc0) hhi
      _ = (b : ℚ) * c.toRat * (1 + 1 / 2 ^ 53) ^ 2 := by ring

theorem float0_8_toRat : float0_8.toRat = 7205759403792794 / 2 ^ 53 := by
  norm_num [Float64.toRat, float0_8]

theorem float1_2_toRat : float1_2.toRat = 5404319552844595 / 2 ^ 52 := by
  norm_num [Float64.toRat, float1_2]

/-- The two constants are the doubles nearest to 4/5 and 6/5: 53-bit mantissas
within half a unit in the last place. -/
theorem float_constants_nearest :
    |float0_8.toRat - 4 / 5| ≤ 1 / 2 ^ 54 ∧ 2 ^ 52 ≤ float0_8.mant ∧ float0_8.mant < 2 ^ 53 ∧
      |float1_2.toRat - 6 / 5| ≤ 1 / 2 ^ 53 ∧ 2 ^ 52 ≤ float1_2.mant ∧
      float1_2.mant < 2 ^ 53 := by
  refine ⟨?_, by decide, by decide, ?_, by decide, by decide⟩
  · rw [float0_8_toRat, abs_le]
    constructor <;> norm_num
  · rw [float1_2_toRat, abs_le]
    constructor <;> norm_num

theorem wrapInt64_double (b : Int) (hpos : 0 < b) (hlt : b < 2 ^ 62) :
    wrapInt64 (b * 2) = 2 * b := by
  unfold wrapInt64
  omega

/-! ## The encoder argument list -/

/-- The value `optValue` reads for an option stands right after the option in
the list. -/
theorem adjacent_of_optValue (flag v : String) :
    ∀ args : List String, optValue flag args = some v → adjacent flag v args
  | [], h => by simp [optValue] at h
  | [_], h => by simp [optValue] at h
  | f :: w :: rest, h => by
    unfold optValue at h
    unfold adjacent
    by_cases hf : f = flag
    · rw [if_pos hf] at h
      cases h
      subst hf
      simp
    · rw [if_neg hf] at h
      have ih := adjacent_of_optValue flag v rest h
      unfold adjacent at ih
      cases rest with
      | nil => simp at ih
      | cons r rest2 =>
        simp only [List.tail_cons] at ih ⊢
        simp only [List.zip_cons_cons, List.mem_cons]
        exact Or.inr (Or.inr ih)

theorem encoderArgs_eq (t : Transcoder) (numCPU : Int) (name : String) (profile : VideoProfile) :
    encoderArgs t numCPU name profile
      = ["-loglevel", "warning", "-i", t.MediaUrl, "-force_key_frames", "expr:gte(t,n_forced*10)",
          "-vf", scaleArg profile, "-preset", "fast", "-r", "25",
          "-b:v", fmtInt profile.Bitrate ++ "k", "-threads", fmtInt (threadsArg numCPU),
          "-crf", fmtInt profile.Quality,
          "-minrate", fmtFloat 6 (Float64.mul (Float64.ofInt profile.Bitrate) float0_8) ++ "k",
          "-maxrate", fmtFloat 6 (Float64.mul (Float64.ofInt profile.Bitrate) float1_2) ++ "k",
          "-bufsize", fmtInt (wrapInt64 (profile.Bitrate * 2)) ++ "k"] ++
        (codecArgs name ++
        ["-c:a", "aac", "-b:a", fmtInt t.AudioProfile.Bitrate ++ "k", "-f", "hls",
          "-movflags", "+faststart", "-hls_time", fmtFloat 2 t.segmentLength,
          "-hls_list_size", "0", "-hls_flags", "split_by_time", "-hls_playlist_type", "vod",
          "-hls_segment_filename",
          pathJoin [t.TranscodeDir, name, Sprintf "%s-%%05d.ts" [t.segmentPrefix]],
          pathJoin [t.TranscodeDir, name, Sprintf "%s.m3u8" [name]]]) := by
  simp [encoderArgs]

theorem optValue_corridor (t : Transcoder) (numCPU : Int) (name : String)
    (profile : VideoProfile) :
    optValue "-b:v" (encoderArgs t numCPU name profile)
        = some (toString profile.Bitrate ++ "k") ∧
      optValue "-minrate" (encoderArgs t numCPU name profile)
        = some (fmtFloat 6 (Float64.mul (Float64.ofInt profile.Bitrate) float0_8) ++ "k") ∧
      optValue "-maxrate" (encoderArgs t numCPU name profile)
        = some (fmtFloat 6 (Float64.mul (Float64.ofInt profile.Bitrate) float1_2) ++ "k") ∧
      optValue "-bufsize" (encoderArgs t numCPU name profile)
        = some (toString (wrapInt64 (profile.Bitrate * 2)) ++ "k") := by
  refine ⟨?_, ?_, ?_, ?_⟩ <;>
    (simp only [encoderArgs_eq, List.cons_append, optValue]
     simp [fmtInt])

theorem threadsArg_of_two_le (n : Int) (h : 2 ≤ n) : threadsArg n = min (max (n - 1) 1) 16 := by
  unfold threadsArg
  rw [if_neg (by omega)]
  simp only
  split <;> omega

/-- The last argument, the path of the variant playlist, ends in `.m3u8`. -/
theorem variant_playlist_path_suffix (t : Transcoder) (name : String) :
    (".m3u8" : String).data
      <:+ (pathJoin [t.TranscodeDir, name, Sprintf "%s.m3u8" [name]]).data := by
  rw [sprintf_variant_playlist]
  exact pathJoin_suffix [t.TranscodeDir, name] (name ++ ".m3u8") name.data
    (".m3u8" : String).data (by rw [String.data_append]) (by decide) (by decide)

theorem variant_playlist_path_ne (t : Transcoder) (name s : String)
    (hs : ¬ (".m3u8" : String).data <:+ s.data) :
    ¬ s = pathJoin [t.TranscodeDir, name, Sprintf "%s.m3u8" [name]] := by
  intro h
  apply hs
  rw [h]
  exact variant_playlist_path_suffix t name

/-- With the VP9 prefix no H.264 argument pair occurs in the list, without it
no VP9 argument pair. -/
theorem codec_pairs_exclusive (t : Transcoder) (numCPU : Int) (name : String)
    (profile : VideoProfile) :
    (HasPrefix name "vp9" = true →
      adjacent "-c:v" "libvpx-vp9" (encoderArgs t numCPU name profile) ∧
      adjacent "-hls_segment_type" "fmp4" (encoderArgs t numCPU name profile) ∧
      adjacent "-tag:v" "vp09" (encoderArgs t numCPU name profile) ∧
      adjacent "-tile-columns" "2" (encoderArgs t numCPU name profile) ∧
      ¬ adjacent "-c:v" "libx264" (encoderArgs t numCPU name profile) ∧
      ¬ adjacent "-hls_segment_type" "mpegts" (encoderArgs t numCPU name profile) ∧
      ¬ adjacent "-tag:v" "avc1.42E01E" (encoderArgs t numCPU name profile) ∧
      ¬ adjacent "-tune" "zerolatency" (encoderArgs t numCPU name profile)) ∧
    (HasPrefix name "vp9" = false →
      adjacent "-c:v" "libx264" (encoderArgs t numCPU name profile) ∧
      adjacent "-hls_segment_type" "mpegts" (encoderArgs t numCPU name profile) ∧
      adjacent "-tag:v" "avc1.42E01E" (encoderArgs t numCPU name profile) ∧
      adjacent "-tune" "zerolatency" (encoderArgs t numCPU name profile) ∧
      ¬ adjacent "-c:v" "libvpx-vp9" (encoderArgs t numCPU name profile) ∧
      ¬ adjacent "-hls_segment_type" "fmp4" (encoderArgs t numCPU name profile) ∧
      ¬ adjacent "-tag:v" "vp09" (encoderArgs t numCPU name profile) ∧
      ¬ adjacent "-tile-columns" "2" (encoderArgs t numCPU name profile)) := by
  have n1 := variant_playlist_path_ne t name "libx264" (by decide)
  have n2 := variant_playlist_path_ne t name "mpegts" (by decide)
  have n3 := variant_playlist_path_ne t name "avc1.42E01E" (by decide)
  have n4 := variant_playlist_path_ne t name "zerolatency" (by decide)
  have n5 := variant_playlist_path_ne t name "libvpx-vp9" (by decide)
  have n6 := variant_playlist_path_ne t name "fmp4" (by decide)
  have n7 := variant_playlist_path_ne t name "vp09" (by decide)
  have n8 := variant_playlist_path_ne t name "2" (by decide)
  constructor
  · intro h
    simp only [encoderArgs_eq, codecArgs, h, if_true, adjacent]
    simp [n1, n2, n3, n4]
  · intro h
    simp only [encoderArgs_eq, codecArgs, h, adjacent]
    simp [n5, n6, n7, n8]

/-- What line 212 builds: for every profile name, with or without the VP9 prefix,
the value of `-hls_segment_filename` is
`path.Join(workDir, name, segmentPrefix + "-%05d.ts")`; it ends in `-%05d.ts`,
not in `.m4s`; and when the working directory is a rooted path of plain
elements and the name and the file name are plain elements it is
`<workDir>/<name>/<segmentPrefix>-%05d.ts`. -/
theorem segment_filename_pattern (t : Transcoder) (numCPU : Int) (name : String)
    (profile : VideoProfile) :
    optValue "-hls_segment_filename" (encoderArgs t numCPU name profile)
        = some (pathJoin [t.TranscodeDir, name, t.segmentPrefix ++ "-%05d.ts"]) ∧
      ("-%05d.ts" : String).data
        <:+ (pathJoin [t.TranscodeDir, name, t.segmentPrefix ++ "-%05d.ts"]).data ∧
      ¬ (".m4s" : String).data
        <:+ (pathJoin [t.TranscodeDir, name, t.segmentPrefix ++ "-%05d.ts"]).data ∧
      (∀ dirs : List String, dirs ≠ [] → (∀ d ∈ dirs, plainElem d) → plainElem name →
        plainElem (t.segmentPrefix ++ "-%05d.ts") →
        t.TranscodeDir = "/" ++ String.intercalate "/" dirs →
        optValue "-hls_segment_filename" (encoderArgs t numCPU name profile)
          = some (t.TranscodeDir ++ "/" ++ name ++ "/" ++ t.segmentPrefix ++ "-%05d.ts")) := by
  have hopt : optValue "-hls_segment_filename" (encoderArgs t numCPU name profile)
      = some (pathJoin [t.TranscodeDir, name, t.segmentPrefix ++ "-%05d.ts"]) := by
    rw [← sprintf_segment_pattern]
    unfold encoderArgs codecArgs
    split <;> simp [optValue]
  have hsuf : ("-%05d.ts" : String).data
      <:+ (pathJoin [t.TranscodeDir, name, t.segmentPrefix ++ "-%05d.ts"]).data :=
    pathJoin_suffix [t.TranscodeDir, name] (t.segmentPrefix ++ "-%05d.ts") t.segmentPrefix.data
      ("-%05d.ts" : String).data (by rw [String.data_append]) (by decide) (by decide)
  refine ⟨hopt, hsuf, ?_, ?_⟩
  · intro hm
    have h := List.suffix_of_suffix_length_le hm hsuf (by decide)
    revert h
    decide
  · intro dirs hd hdirs hname hfile hdir
    rw [hopt, hdir, pathJoin_plain dirs name _ hd hdirs hname hfile]
    simp only [String.append_assoc]

/-! ## `Transcode` and `fetchMetadata` -/

theorem encoderStarts_append (a b : List Event) :
    encoderStarts (a ++ b) = encoderStarts a ++ encoderStarts b := by
  simp [encoderStarts, List.filterMap_append]

theorem encoderStarts_logIfError (msg : String) (err : GoError) :
    encoderStarts (logIfError msg err) = [] := by
  cases err <;> rfl

theorem encoderStarts_fetchMetadata (w : World) (t : Transcoder) :
    encoderStarts (fetchMetadata w t).trace = [] := by
  unfold fetchMetadata
  split
  · rfl
  · split
    · split
      · split <;> rfl
      · rfl
    · rfl

theorem encoderStarts_transcodeProfile (w : World) (t : Transcoder)
    (entry : String × VideoProfile) :
    encoderStarts (transcodeProfile w t entry)
      = [(t.FFmpegBinary, encoderArgs t w.NumCPU entry.1 entry.2)] := by
  simp only [transcodeProfile, encoderStarts_append, encoderStarts_logIfError]
  split <;> simp [encoderStarts, encoderStarts_append, encoderStarts_logIfError]
  · have := encoderStarts_logIfError "Error creating transcode directory"
      (w.Mkdir (pathJoin [t.TranscodeDir, entry.1]))
    simpa [encoderStarts] using this

theorem encoderStarts_flatMap (w : World) (t : Transcoder) (order : ProfileMap) :
    encoderStarts (order.flatMap (transcodeProfile w t))
      = order.map fun e => (t.FFmpegBinary, encoderArgs t w.NumCPU e.1 e.2) := by
  induction order with
  | nil => rfl
  | cons e l ih =>
    rw [List.flatMap_cons, encoderStarts_append, encoderStarts_transcodeProfile, ih]
    rfl

/-- The fields `fetchMetadata` leaves alone. -/
theorem fetchMetadata_fields (w : World) (t : Transcoder) :
    (fetchMetadata w t).t = { t with metadata := (fetchMetadata w t).t.metadata } := by
  unfold fetchMetadata
  split
  · rfl
  · split
    · split
      · split <;> rfl
      · rfl
    · rfl

theorem encoderArgs_congr (t u : Transcoder) (numCPU : Int) (name : String)
    (profile : VideoProfile) (h1 : u.MediaUrl = t.MediaUrl) (h2 : u.TranscodeDir = t.TranscodeDir)
    (h3 : u.AudioProfile = t.AudioProfile) (h4 : u.segmentLength = t.segmentLength)
    (h5 : u.segmentPrefix = t.segmentPrefix) :
    encoderArgs u numCPU name profile = encoderArgs t numCPU name profile := by
  simp only [encoderArgs, h1, h2, h3, h4, h5]

/-- The encoder invocations of a run of `Transcode`: one per entry visited, in
the order of the visit, whatever the world answers; and the error returned is
`nil`. -/
theorem transcode_starts (sortSlice : SliceSorter) (w : World) (t : Transcoder)
    (rangePlaylist rangeLoop : ProfileMap) :
    (Transcode sortSlice w t rangePlaylist rangeLoop).err = none ∧
      encoderStarts (Transcode sortSlice w t rangePlaylist rangeLoop).trace
        = rangeLoop.map fun e => (t.FFmpegBinary, encoderArgs t w.NumCPU e.1 e.2) := by
  refine ⟨rfl, ?_⟩
  simp only [Transcode, encoderStarts_append, encoderStarts_logIfError,
    encoderStarts_fetchMetadata, encoderStarts_flatMap, List.append_nil]
  have hf := fetchMetadata_fields w
    { t with playlist := playlist sortSlice rangePlaylist "%s/%s.m3u8" }
  have hbin : (fetchMetadata w
      { t with playlist := playlist sortSlice rangePlaylist "%s/%s.m3u8" }).t.FFmpegBinary
        = t.FFmpegBinary := by rw [hf]
  have hargs : ∀ e : String × VideoProfile,
      encoderArgs (fetchMetadata w
        { t with playlist := playlist sortSlice rangePlaylist "%s/%s.m3u8" }).t w.NumCPU e.1 e.2
        = encoderArgs t w.NumCPU e.1 e.2 := by
    intro e
    apply encoderArgs_congr <;> rw [hf]
  simp [encoderStarts, hbin, hargs]

/-! ## The claims -/

/-- C1: for every profile set, empty or not, and every order in which the map is
visited, `playlist(profiles, "%s/%s.m3u8")` is the header line followed by the
variant lines of the profiles in a non-decreasing order of bitrate, one pair
of lines per profile (the listed entries are a permutation of the profiles).
For three profiles with bitrates 1800, 5000 and 800 each of the six orders of
visit gives the bandwidths 800, 1800, 5000 in this order. -/
theorem playlist_ascending_bitrate (sortSlice : SliceSorter) (h : SortsSlice sortSlice) :
    (∀ profiles order : ProfileMap, order.Perm profiles →
      ∃ qs : ProfileMap, qs.Perm profiles ∧ (qs.map fun e => e.2.Bitrate).Sorted (· ≤ ·) ∧
        (playlistLayers sortSlice order "%s/%s.m3u8").map Layer.Bitrate
          = qs.map (fun e => e.2.Bitrate) ∧
        playlist sortSlice order "%s/%s.m3u8"
          = Join ("#EXTM3U" :: qs.flatMap variantLines) "\n") ∧
    (∀ (a b c : String) (pa pb pc : VideoProfile) (order : ProfileMap),
      pa.Bitrate = 1800 → pb.Bitrate = 5000 → pc.Bitrate = 800 →
      order.Perm [(a, pa), (b, pb), (c, pc)] →
      (playlistLayers sortSlice order "%s/%s.m3u8").map Layer.Bitrate = [800, 1800, 5000] ∧
      playlist sortSlice order "%s/%s.m3u8"
        = Join ("#EXTM3U" :: (variantLines (c, pc) ++ variantLines (a, pa) ++
            variantLines (b, pb))) "\n") := by
  constructor
  · intro profiles order hp
    obtain ⟨qs, hq, hs, he, ht⟩ := playlist_spec sortSlice h order
    refine ⟨qs, hq.trans hp, hs, ?_, ht⟩
    rw [he, List.map_map]
    rfl
  · intro a b c pa pb pc order ha hb hc hp
    have hp2 : order.Perm [(c, pc), (a, pa), (b, pb)] :=
      hp.trans ((List.Perm.cons _ (List.Perm.swap _ _ _)).trans (List.Perm.swap _ _ _))
    have hs : (([(c, pc), (a, pa), (b, pb)] : ProfileMap).map fun e => e.2.Bitrate).Sorted
        (· < ·) := by
      simp [ha, hb, hc]
    have hl := playlistLayers_of_sorted sortSlice h order _ hp2 hs "%s/%s.m3u8"
    constructor
    · rw [hl]
      simp [playlistLayer, ha, hb, hc]
    · rw [playlist_eq, hl, flatMap_entries]
      simp [List.flatMap_cons]

/-- Witness of `playlist_ascending_bitrate`: Go's insertion sort and three profiles of `main`. -/
theorem playlist_ascending_bitrate_witness :
    (∃ qs : ProfileMap,
      qs.Perm [("540p", ⟨540, 960, 1800, 32⟩), ("1080p", ⟨1080, 1920, 5000, 32⟩),
        ("360p", ⟨360, 640, 800, 32⟩)] ∧
      (qs.map fun e => e.2.Bitrate).Sorted (· ≤ ·) ∧
      (playlistLayers insertionSortLessFunc
          [("360p", ⟨360, 640, 800, 32⟩), ("1080p", ⟨1080, 1920, 5000, 32⟩),
            ("540p", ⟨540, 960, 1800, 32⟩)] "%s/%s.m3u8").map Layer.Bitrate
        = qs.map (fun e => e.2.Bitrate) ∧
      playlist insertionSortLessFunc
          [("360p", ⟨360, 640, 800, 32⟩), ("1080p", ⟨1080, 1920, 5000, 32⟩),
            ("540p", ⟨540, 960, 1800, 32⟩)] "%s/%s.m3u8"
        = Join ("#EXTM3U" :: qs.flatMap variantLines) "\n") ∧
    playlist insertionSortLessFunc
        [("540p", ⟨540, 960, 1800, 32⟩), ("1080p", ⟨1080, 1920, 5000, 32⟩),
          ("360p", ⟨360, 640, 800, 32⟩)] "%s/%s.m3u8"
      = Join ("#EXTM3U" :: (variantLines ("360p", ⟨360, 640, 800, 32⟩) ++
          variantLines ("540p", ⟨540, 960, 1800, 32⟩) ++
          variantLines ("1080p", ⟨1080, 1920, 5000, 32⟩))) "\n" :=
  ⟨(playlist_ascending_bitrate insertionSortLessFunc insertionSortLessFunc_sortsSlice).1
      [("540p", ⟨540, 960, 1800, 32⟩), ("1080p", ⟨1080, 1920, 5000, 32⟩),
        ("360p", ⟨360, 640, 800, 32⟩)]
      [("360p", ⟨360, 640, 800, 32⟩), ("1080p", ⟨1080, 1920, 5000, 32⟩),
        ("540p", ⟨540, 960, 1800, 32⟩)]
      (List.Perm.swap _ _ _ |>.trans (List.Perm.cons _ (List.Perm.swap _ _ _)) |>.trans
        (List.Perm.swap _ _ _)),
    ((playlist_ascending_bitrate insertionSortLessFunc insertionSortLessFunc_sortsSlice).2
      "540p" "1080p" "360p" ⟨540, 960, 1800, 32⟩ ⟨1080, 1920, 5000, 32⟩ ⟨360, 640, 800, 32⟩
      [("540p", ⟨540, 960, 1800, 32⟩), ("1080p", ⟨1080, 1920, 5000, 32⟩),
        ("360p", ⟨360, 640, 800, 32⟩)] rfl rfl rfl (List.Perm.refl _)).2⟩

/-- C2 (as amended): for every set of n profiles whose names contain no newline,
`playlist(profiles, "%s/%s.m3u8")` is the line `#EXTM3U` followed by exactly n
pairs of lines (the header `#EXT-X-STREAM-INF:BANDWIDTH=..,CODECS="<tag>,mp4a.40.2",
RESOLUTION=<w>x<h>,NAME=<name>` and the path `<name>/<name>.m3u8`), joined by
single newlines with no empty line and no trailing newline; when moreover no
name begins with `#EXT-X-STREAM-INF`, exactly n lines begin with
`#EXT-X-STREAM-INF`.  For the single profile "480p" (480, 854, 480) the text has
exactly one such line and it carries `BANDWIDTH=480`. -/
theorem playlist_lines (sortSlice : SliceSorter) (h : SortsSlice sortSlice)
    (profiles : ProfileMap) (hnl : ∀ e ∈ profiles, '\n' ∉ e.1.data) :
    (∃ qs : ProfileMap, qs.Perm profiles ∧
      playlist sortSlice profiles "%s/%s.m3u8"
        = Join ("#EXTM3U" :: qs.flatMap variantLines) "\n" ∧
      lines (playlist sortSlice profiles "%s/%s.m3u8") = "#EXTM3U" :: qs.flatMap variantLines) ∧
    (lines (playlist sortSlice profiles "%s/%s.m3u8")).length = 1 + 2 * profiles.length ∧
    "" ∉ lines (playlist sortSlice profiles "%s/%s.m3u8") ∧
    ((∀ e ∈ profiles, HasPrefix e.1 "#EXT-X-STREAM-INF" = false) →
      (lines (playlist sortSlice profiles "%s/%s.m3u8")).countP
        (fun l => HasPrefix l "#EXT-X-STREAM-INF") = profiles.length) ∧
    (∀ quality : Int,
      playlist sortSlice [("480p", ⟨480, 854, 480, quality⟩)] "%s/%s.m3u8"
        = "#EXTM3U\n#EXT-X-STREAM-INF:BANDWIDTH=480,CODECS=\"avc1.42E01E,mp4a.40.2\",RESOLUTION=480x854,NAME=480p\n480p/480p.m3u8" ∧
      (lines (playlist sortSlice [("480p", ⟨480, 854, 480, quality⟩)] "%s/%s.m3u8")).filter
          (fun l => HasPrefix l "#EXT-X-STREAM-INF")
        = ["#EXT-X-STREAM-INF:BANDWIDTH=480,CODECS=\"avc1.42E01E,mp4a.40.2\",RESOLUTION=480x854,NAME=480p"]) := by
  obtain ⟨qs, hq, _, _, ht⟩ := playlist_spec sortSlice h profiles
  have hl : lines (playlist sortSlice profiles "%s/%s.m3u8")
      = "#EXTM3U" :: qs.flatMap variantLines := by
    rw [ht]
    refine lines_join _ (List.cons_ne_nil _ _) ?_
    intro l hl
    rcases List.mem_cons.1 hl with rfl | hl
    · decide
    · obtain ⟨e, he, hle⟩ := List.mem_flatMap.1 hl
      exact variantLines_no_newline e (hnl e (hq.subset he)) l hle
  refine ⟨⟨qs, hq, ht, hl⟩, ?_, ?_, ?_, ?_⟩
  · rw [hl, List.length_cons, ← hq.length_eq]
    have : ∀ l : ProfileMap, (l.flatMap variantLines).length = 2 * l.length := by
      intro l
      induction l with
      | nil => rfl
      | cons e l ih =>
        rw [List.flatMap_cons, List.length_append, ih, List.length_cons]
        simp only [variantLines, List.length_cons, List.length_nil]
        omega
    rw [this]
    omega
  · rw [hl]
    intro hmem
    rcases List.mem_cons.1 hmem with h0 | h0
    · revert h0; decide
    · obtain ⟨e, _, hle⟩ := List.mem_flatMap.1 h0
      exact variantLines_ne_empty e hle
  · intro hp
    rw [hl, List.countP_cons, flatMap_variantLines_count qs fun e he => hp e (hq.subset he),
      hq.length_eq]
    rfl
  · intro quality
    obtain ⟨q1, hq1, _, _, ht1⟩ := playlist_spec sortSlice h [("480p", ⟨480, 854, 480, quality⟩)]
    have htext : playlist sortSlice [("480p", ⟨480, 854, 480, quality⟩)] "%s/%s.m3u8"
        = "#EXTM3U\n#EXT-X-STREAM-INF:BANDWIDTH=480,CODECS=\"avc1.42E01E,mp4a.40.2\",RESOLUTION=480x854,NAME=480p\n480p/480p.m3u8" := by
      rw [ht1, List.perm_singleton.1 hq1]
      rfl
    refine ⟨htext, ?_⟩
    rw [htext]
    decide

/-- C2 (counterexample): one profile whose name is `#EXT-X-STREAM-INF` (no
newline in it) gives a playlist with two lines that begin with
`#EXT-X-STREAM-INF`, the header and the path, not one. -/
theorem playlist_stream_inf_count_counterexample :
    '\n' ∉ ("#EXT-X-STREAM-INF" : String).data ∧
      ([("#EXT-X-STREAM-INF", ⟨480, 854, 480, 32⟩)] : ProfileMap).length = 1 ∧
      (lines (playlist insertionSortLessFunc [("#EXT-X-STREAM-INF", ⟨480, 854, 480, 32⟩)]
        "%s/%s.m3u8")).countP (fun l => HasPrefix l "#EXT-X-STREAM-INF") = 2 := by
  decide

/-- Witness of `playlist_lines`: Go's insertion sort and two profiles of `main`. -/
theorem playlist_lines_witness :
    lines (playlist insertionSortLessFunc
        [("480p", ⟨480, 854, 480, 32⟩), ("360p", ⟨360, 640, 800, 32⟩)] "%s/%s.m3u8")
      = ["#EXTM3U",
          "#EXT-X-STREAM-INF:BANDWIDTH=480,CODECS=\"avc1.42E01E,mp4a.40.2\",RESOLUTION=480x854,NAME=480p",
          "480p/480p.m3u8",
          "#EXT-X-STREAM-INF:BANDWIDTH=800,CODECS=\"avc1.42E01E,mp4a.40.2\",RESOLUTION=360x640,NAME=360p",
          "360p/360p.m3u8"] ∧
      (lines (playlist insertionSortLessFunc
        [("480p", ⟨480, 854, 480, 32⟩), ("360p", ⟨360, 640, 800, 32⟩)] "%s/%s.m3u8")).countP
          (fun l => HasPrefix l "#EXT-X-STREAM-INF") = 2 :=
  ⟨by decide,
    (playlist_lines insertionSortLessFunc insertionSortLessFunc_sortsSlice
      [("480p", ⟨480, 854, 480, 32⟩), ("360p", ⟨360, 640, 800, 32⟩)] (by decide)).2.2.2.1
      (by decide)⟩

/-- C3: the codec branch is decided by the test `strings.HasPrefix(name, "vp9")`,
the same in `Transcode` and in `playlist`.  With the prefix the argument list
carries `-c:v libvpx-vp9`, `-hls_segment_type fmp4`, `-tag:v vp09`,
`-tile-columns 2` and none of the H.264 arguments, and the playlist codec tag
is `vp09.00.10.08`; without it the list carries `-c:v libx264`,
`-hls_segment_type mpegts`, `-tag:v avc1.42E01E`, `-tune zerolatency` and none
of the VP9 arguments, and the playlist codec tag is `avc1.42E01E`.  "The list
carries `-o v`" is stated twice: `v` is the value ffmpeg reads for the option
`-o` (`optValue`), and `-o` is immediately followed by `v` in the list
(`adjacent`).  The name "vp9_720p" has the prefix, "720p" has not. -/
theorem codec_branch_by_name_prefix (t : Transcoder) (numCPU : Int) (name : String)
    (profile : VideoProfile) (segmentNameFmt : String) :
    optValue "-c:v" (encoderArgs t numCPU name profile)
        = some (if HasPrefix name "vp9" then "libvpx-vp9" else "libx264") ∧
      optValue "-hls_segment_type" (encoderArgs t numCPU name profile)
        = some (if HasPrefix name "vp9" then "fmp4" else "mpegts") ∧
      optValue "-tag:v" (encoderArgs t numCPU name profile)
        = some (if HasPrefix name "vp9" then "vp09" else "avc1.42E01E") ∧
      optValue "-tile-columns" (encoderArgs t numCPU name profile)
        = (if HasPrefix name "vp9" then some "2" else none) ∧
      optValue "-tune" (encoderArgs t numCPU name profile)
        = (if HasPrefix name "vp9" then none else some "zerolatency") ∧
      (if HasPrefix name "vp9" = true then
        adjacent "-c:v" "libvpx-vp9" (encoderArgs t numCPU name profile) ∧
        adjacent "-hls_segment_type" "fmp4" (encoderArgs t numCPU name profile) ∧
        adjacent "-tag:v" "vp09" (encoderArgs t numCPU name profile) ∧
        adjacent "-tile-columns" "2" (encoderArgs t numCPU name profile) ∧
        ¬ adjacent "-c:v" "libx264" (encoderArgs t numCPU name profile) ∧
        ¬ adjacent "-hls_segment_type" "mpegts" (encoderArgs t numCPU name profile) ∧
        ¬ adjacent "-tag:v" "avc1.42E01E" (encoderArgs t numCPU name profile) ∧
        ¬ adjacent "-tune" "zerolatency" (encoderArgs t numCPU name profile)
      else
        adjacent "-c:v" "libx264" (encoderArgs t numCPU name profile) ∧
        adjacent "-hls_segment_type" "mpegts" (encoderArgs t numCPU name profile) ∧
        adjacent "-tag:v" "avc1.42E01E" (encoderArgs t numCPU name profile) ∧
        adjacent "-tune" "zerolatency" (encoderArgs t numCPU name profile) ∧
        ¬ adjacent "-c:v" "libvpx-vp9" (encoderArgs t numCPU name profile) ∧
        ¬ adjacent "-hls_segment_type" "fmp4" (encoderArgs t numCPU name profile) ∧
        ¬ adjacent "-tag:v" "vp09" (encoderArgs t numCPU name profile) ∧
        ¬ adjacent "-tile-columns" "2" (encoderArgs t numCPU name profile)) ∧
      (playlistLayer segmentNameFmt (name, profile)).Entries.head?
        = some ("#EXT-X-STREAM-INF:BANDWIDTH=" ++ toString profile.Bitrate ++ ",CODECS=\"" ++
            (if HasPrefix name "vp9" then "vp09.00.10.08" else "avc1.42E01E") ++
            ",mp4a.40.2\",RESOLUTION=" ++ toString profile.Width ++ "x" ++
            toString profile.Height ++ ",NAME=" ++ name) ∧
      HasPrefix "vp9_720p" "vp9" = true ∧ HasPrefix "720p" "vp9" = false := by
  refine ⟨?_, ?_, ?_, ?_, ?_, ?_, rfl, by decide, by decide⟩
  · unfold encoderArgs codecArgs
    split <;> simp [optValue]
  · unfold encoderArgs codecArgs
    split <;> simp [optValue]
  · unfold encoderArgs codecArgs
    split <;> simp [optValue]
  · unfold encoderArgs codecArgs
    split <;> simp [optValue]
  · unfold encoderArgs codecArgs
    split <;> simp [optValue]
  · by_cases h : HasPrefix name "vp9" = true
    · rw [if_pos h]
      exact (codec_pairs_exclusive t numCPU name profile).1 h
    · rw [if_neg h]
      exact (codec_pairs_exclusive t numCPU name profile).2 (by simpa using h)

/-- C4: for every profile the value of the option `-vf`, the eighth argument of
the list, is `scale=-2:<Height>` when Width ≥ Height and `scale=<Width>:-2`
when Width < Height; for a profile 1080 x 1920 it is `scale=1080:-2`. -/
theorem scale_filter (t : Transcoder) (numCPU : Int) (name : String) (profile : VideoProfile) :
    optValue "-vf" (encoderArgs t numCPU name profile)
        = some (if profile.Width ≥ profile.Height then "scale=-2:" ++ toString profile.Height
            else "scale=" ++ toString profile.Width ++ ":-2") ∧
      (encoderArgs t numCPU name profile).get? 6 = some "-vf" ∧
      (encoderArgs t numCPU name profile).get? 7
        = some (if profile.Width ≥ profile.Height then "scale=-2:" ++ toString profile.Height
            else "scale=" ++ toString profile.Width ++ ":-2") ∧
      (∀ bitrate quality : Int,
        optValue "-vf" (encoderArgs t numCPU name ⟨1080, 1920, bitrate, quality⟩)
          = some "scale=1080:-2") := by
  refine ⟨?_, ?_, ?_, ?_⟩
  · simp only [encoderArgs_eq, List.cons_append, optValue]
    simp [scaleArg, fmtInt]
  · simp [encoderArgs_eq]
  · simp [encoderArgs_eq, scaleArg, fmtInt]
  · intro bitrate quality
    simp only [encoderArgs_eq, List.cons_append, optValue]
    simp [scaleArg, fmtInt]
    decide

/-- C5 (as amended): for every profile with bitrate 0 < b < 2^62 the argument list
carries target `-b:v <b>k`, minimum `-minrate` = `float64(b)*0.8`, maximum
`-maxrate` = `float64(b)*1.2` (both printed with `%f`, both within a relative
error of 2^-51 of 0.8 b and 1.2 b) and buffer `-bufsize <2b>k`, and
minimum ≤ target ≤ maximum ≤ buffer; for b = 5000 the arguments are
`4000.000000k`, `6000.000000k` and `10000k`. -/
theorem bitrate_corridor (t : Transcoder) (numCPU : Int) (name : String) (profile : VideoProfile)
    (hpos : 0 < profile.Bitrate) (hlt : profile.Bitrate < 2 ^ 62) :
    optValue "-b:v" (encoderArgs t numCPU name profile)
        = some (toString profile.Bitrate ++ "k") ∧
      optValue "-minrate" (encoderArgs t numCPU name profile)
        = some (fmtFloat 6 (Float64.mul (Float64.ofInt profile.Bitrate) float0_8) ++ "k") ∧
      optValue "-maxrate" (encoderArgs t numCPU name profile)
        = some (fmtFloat 6 (Float64.mul (Float64.ofInt profile.Bitrate) float1_2) ++ "k") ∧
      optValue "-bufsize" (encoderArgs t numCPU name profile)
        = some (toString (2 * profile.Bitrate) ++ "k") ∧
      |(Float64.mul (Float64.ofInt profile.Bitrate) float0_8).toRat - 4 / 5 * profile.Bitrate|
        ≤ 4 / 5 * profile.Bitrate / 2 ^ 51 ∧
      |(Float64.mul (Float64.ofInt profile.Bitrate) float1_2).toRat - 6 / 5 * profile.Bitrate|
        ≤ 6 / 5 * profile.Bitrate / 2 ^ 51 ∧
      (Float64.mul (Float64.ofInt profile.Bitrate) float0_8).toRat ≤ (profile.Bitrate : ℚ) ∧
      (profile.Bitrate : ℚ) ≤ (Float64.mul (Float64.ofInt profile.Bitrate) float1_2).toRat ∧
      (Float64.mul (Float64.ofInt profile.Bitrate) float1_2).toRat
        ≤ ((wrapInt64 (profile.Bitrate * 2) : Int) : ℚ) ∧
      (∀ width height quality : Int,
        optValue "-b:v" (encoderArgs t numCPU name ⟨width, height, 5000, quality⟩)
            = some "5000k" ∧
          optValue "-minrate" (encoderArgs t numCPU name ⟨width, height, 5000, quality⟩)
            = some "4000.000000k" ∧
          optValue "-maxrate" (encoderArgs t numCPU name ⟨width, height, 5000, quality⟩)
            = some "6000.000000k" ∧
          optValue "-bufsize" (encoderArgs t numCPU name ⟨width, height, 5000, quality⟩)
            = some "10000k") := by
  obtain ⟨o1, o2, o3, o4⟩ := optValue_corridor t numCPU name profile
  have hw := wrapInt64_double profile.Bitrate hpos hlt
  obtain ⟨l8, u8⟩ := scaled_bitrate profile.Bitrate hpos float0_8 rfl
  obtain ⟨l12, u12⟩ := scaled_bitrate profile.Bitrate hpos float1_2 rfl
  rw [float0_8_toRat] at l8 u8
  rw [float1_2_toRat] at l12 u12
  have hb : (0 : ℚ) < (profile.Bitrate : ℚ) := by exact_mod_cast hpos
  generalize (Float64.mul (Float64.ofInt profile.Bitrate) float0_8).toRat = lo at l8 u8 ⊢
  generalize (Float64.mul (Float64.ofInt profile.Bitrate) float1_2).toRat = hi at l12 u12 ⊢
  have k1 : (7205759403792794 / 2 ^ 53 : ℚ) * (1 - 1 / 2 ^ 53) ^ 2 ≥ 4 / 5 - 4 / 5 / 2 ^ 51 := by
    norm_num
  have k2 : (7205759403792794 / 2 ^ 53 : ℚ) * (1 + 1 / 2 ^ 53) ^ 2 ≤ 4 / 5 + 4 / 5 / 2 ^ 51 := by
    norm_num
  have k3 : (5404319552844595 / 2 ^ 52 : ℚ) * (1 - 1 / 2 ^ 53) ^ 2 ≥ 6 / 5 - 6 / 5 / 2 ^ 51 := by
    norm_num
  have k4 : (5404319552844595 / 2 ^ 52 : ℚ) * (1 + 1 / 2 ^ 53) ^ 2 ≤ 6 / 5 + 6 / 5 / 2 ^ 51 := by
    norm_num
  have e1 : (profile.Bitrate : ℚ) * (4 / 5 - 4 / 5 / 2 ^ 51) ≤ lo := by
    refine le_trans ?_ l8
    rw [mul_assoc]
    exact mul_le_mul_of_nonneg_left k1 (le_of_lt hb)
  have e2 : lo ≤ (profile.Bitrate : ℚ) * (4 / 5 + 4 / 5 / 2 ^ 51) := by
    refine le_trans u8 ?_
    rw [mul_assoc]
    exact mul_le_mul_of_nonneg_left k2 (le_of_lt hb)
  have e3 : (profile.Bitrate : ℚ) * (6 / 5 - 6 / 5 / 2 ^ 51) ≤ hi := by
    refine le_trans ?_ l12
    rw [mul_assoc]
    exact mul_le_mul_of_nonneg_left k3 (le_of_lt hb)
  have e4 : hi ≤ (profile.Bitrate : ℚ) * (6 / 5 + 6 / 5 / 2 ^ 51) := by
    refine le_trans u12 ?_
    rw [mul_assoc]
    exact mul_le_mul_of_nonneg_left k4 (le_of_lt hb)
  refine ⟨o1, o2, o3, by rw [o4, hw], ?_, ?_, ?_, ?_, ?_, ?_⟩
  · rw [abs_le]
    constructor <;> nlinarith
  · rw [abs_le]
    constructor <;> nlinarith
  · nlinarith
  · nlinarith
  · rw [hw]
    push_cast
    nlinarith
  · intro width height quality
    obtain ⟨p1, p2, p3, p4⟩ := optValue_corridor t numCPU name ⟨width, height, 5000, quality⟩
    rw [p1, p2, p3, p4]
    dsimp only
    decide

/-- C5 (counterexample): the bitrate 2^62 is a positive 64-bit `int`; its double
wraps to -2^63, so the list carries `-bufsize -9223372036854775808k`, not
`9223372036854775808k`, and the buffer is below the maximum. -/
theorem bufsize_wraps_counterexample :
    (0 : Int) < 4611686018427387904 ∧ (4611686018427387904 : Int) < 2 ^ 63 ∧
      optValue "-bufsize"
          (encoderArgs sampleTranscoder 8 "1080p" ⟨1080, 1920, 4611686018427387904, 32⟩)
        = some "-9223372036854775808k" ∧
      optValue "-bufsize"
          (encoderArgs sampleTranscoder 8 "1080p" ⟨1080, 1920, 4611686018427387904, 32⟩)
        ≠ some (toString (2 * (4611686018427387904 : Int)) ++ "k") ∧
      optValue "-maxrate"
          (encoderArgs sampleTranscoder 8 "1080p" ⟨1080, 1920, 4611686018427387904, 32⟩)
        = some "5534023222112865280.000000k" ∧
      wrapInt64 (4611686018427387904 * 2) < 5534023222112865280 := by
  decide

/-- Witness of `bitrate_corridor`: the profile "720p" of `main`, bitrate 2800. -/
theorem bitrate_corridor_witness :
    optValue "-bufsize" (encoderArgs sampleTranscoder 8 "720p" ⟨720, 1280, 2800, 32⟩)
        = some (toString (2 * (2800 : Int)) ++ "k") ∧
      (Float64.mul (Float64.ofInt 2800) float0_8).toRat ≤ ((2800 : Int) : ℚ) :=
  ⟨(bitrate_corridor sampleTranscoder 8 "720p" ⟨720, 1280, 2800, 32⟩ (by decide)
      (by decide)).2.2.2.1,
    (bitrate_corridor sampleTranscoder 8 "720p" ⟨720, 1280, 2800, 32⟩ (by decide)
      (by decide)).2.2.2.2.2.2.1⟩

/-- C6 (the code at its failing input): for the profile "vp9_720p" of `main` the
VP9 branch is taken (`-hls_segment_type fmp4`, fragmented-MP4 segments) and
the pattern is `/srv/output/run1/vp9_720p/chunk-%05d.ts`, where the claim has
`/srv/output/run1/vp9_720p/chunk-%05d.m4s`; on the sibling H.264 path, for the
profile "720p", the segment type `mpegts` and the pattern
`/srv/output/run1/720p/chunk-%05d.ts` agree, as the claim says. -/
theorem segment_filename_vp9_ts :
    HasPrefix "vp9_720p" "vp9" = true ∧
      optValue "-hls_segment_type" (encoderArgs sampleTranscoder 8 "vp9_720p" ⟨720, 1280, 2800, 32⟩)
        = some "fmp4" ∧
      optValue "-hls_segment_filename"
          (encoderArgs sampleTranscoder 8 "vp9_720p" ⟨720, 1280, 2800, 32⟩)
        = some "/srv/output/run1/vp9_720p/chunk-%05d.ts" ∧
      optValue "-hls_segment_filename"
          (encoderArgs sampleTranscoder 8 "vp9_720p" ⟨720, 1280, 2800, 32⟩)
        ≠ some (sampleTranscoder.TranscodeDir ++ "/" ++ "vp9_720p" ++ "/" ++
            sampleTranscoder.segmentPrefix ++ "-%05d.m4s") ∧
      HasPrefix "720p" "vp9" = false ∧
      optValue "-hls_segment_type" (encoderArgs sampleTranscoder 8 "720p" ⟨720, 1280, 2800, 32⟩)
        = some "mpegts" ∧
      optValue "-hls_segment_filename"
          (encoderArgs sampleTranscoder 8 "720p" ⟨720, 1280, 2800, 32⟩)
        = some (sampleTranscoder.TranscodeDir ++ "/" ++ "720p" ++ "/" ++
            sampleTranscoder.segmentPrefix ++ "-%05d.ts") := by
  decide

/-- C7 (the code at its failing input): with one execution unit the thread budget
is 0, where the clamp to [1,16] gives 1, and the argument list carries
`-threads 0`. -/
theorem threads_one_cpu (t : Transcoder) (name : String) (profile : VideoProfile) :
    threadsArg 1 = 0 ∧ min (max ((1 : Int) - 1) 1) 16 = 1 ∧
      optValue "-threads" (encoderArgs t 1 name profile) = some "0" := by
  refine ⟨by decide, by decide, ?_⟩
  simp only [encoderArgs_eq, List.cons_append, optValue]
  simp
  decide

/-- C8 (as amended): two calls of `playlist` on the same profile map list the same
bandwidths in the same order whatever order the map is visited in on each
call, and when the bitrates of the profiles are pairwise distinct the two
texts are byte-identical.  (With equal bitrates the relative order of the tied
variants is left to the order of the visit.) -/
theorem playlist_deterministic_up_to_ties (sortSlice : SliceSorter) (h : SortsSlice sortSlice)
    (profiles order1 order2 : ProfileMap) (h1 : order1.Perm profiles)
    (h2 : order2.Perm profiles) (segmentNameFmt : String) :
    (playlistLayers sortSlice order1 segmentNameFmt).map Layer.Bitrate
        = (playlistLayers sortSlice order2 segmentNameFmt).map Layer.Bitrate ∧
      ((profiles.map fun e => e.2.Bitrate).Nodup →
        playlist sortSlice order1 segmentNameFmt = playlist sortSlice order2 segmentNameFmt) := by
  have hp : order1.Perm order2 := h1.trans h2.symm
  refine ⟨playlistLayers_bitrates sortSlice h order1 order2 hp segmentNameFmt, ?_⟩
  intro hd
  have hd1 : (order1.map fun e => e.2.Bitrate).Nodup := (h1.map _).nodup_iff.2 hd
  rw [playlist_eq, playlist_eq,
    playlistLayers_order_irrelevant sortSlice h order1 order2 hp hd1 segmentNameFmt]

/-- C8 (counterexample): the two profiles of `main` that share the bitrate 5000,
visited in the two possible orders, give two different playlist texts. -/
theorem playlist_tie_order_counterexample :
    ([("1080p", ⟨1080, 1920, 5000, 32⟩), ("vp9_1080p", ⟨1080, 1920, 5000, 32⟩)] : ProfileMap).Perm
        [("vp9_1080p", ⟨1080, 1920, 5000, 32⟩), ("1080p", ⟨1080, 1920, 5000, 32⟩)] ∧
      playlist insertionSortLessFunc
          [("1080p", ⟨1080, 1920, 5000, 32⟩), ("vp9_1080p", ⟨1080, 1920, 5000, 32⟩)] "%s/%s.m3u8"
        ≠ playlist insertionSortLessFunc
          [("vp9_1080p", ⟨1080, 1920, 5000, 32⟩), ("1080p", ⟨1080, 1920, 5000, 32⟩)] "%s/%s.m3u8" :=
  ⟨List.Perm.swap _ _ _, by decide⟩

/-- Witness of `playlist_deterministic_up_to_ties`: Go's insertion sort and two profiles of `main` with distinct bitrates, visited in both orders. -/
theorem playlist_deterministic_up_to_ties_witness :
    playlist insertionSortLessFunc
        [("540p", ⟨540, 960, 1800, 32⟩), ("1080p", ⟨1080, 1920, 5000, 32⟩)] "%s/%s.m3u8"
      = playlist insertionSortLessFunc
        [("1080p", ⟨1080, 1920, 5000, 32⟩), ("540p", ⟨540, 960, 1800, 32⟩)] "%s/%s.m3u8" :=
  (playlist_deterministic_up_to_ties insertionSortLessFunc insertionSortLessFunc_sortsSlice
    [("540p", ⟨540, 960, 1800, 32⟩), ("1080p", ⟨1080, 1920, 5000, 32⟩)]
    [("540p", ⟨540, 960, 1800, 32⟩), ("1080p", ⟨1080, 1920, 5000, 32⟩)]
    [("1080p", ⟨1080, 1920, 5000, 32⟩), ("540p", ⟨540, 960, 1800, 32⟩)]
    (List.Perm.refl _) (List.Perm.swap _ _ _) "%s/%s.m3u8").2 (by decide)

/-- C9: for every profile set, empty or not (the entries of `t.VideoProfiles`,
visited in any order `rangeLoop`) and every outcome of the external steps (the `World`: the
write of the master playlist, the probes, each directory creation, each start
and each wait of the encoder), `Transcode` starts the encoder exactly once for
every profile, with the argument list of that profile, and returns `nil`. -/
theorem transcode_runs_every_profile (sortSlice : SliceSorter) (w : World) (t : Transcoder)
    (rangePlaylist rangeLoop : ProfileMap) (hrange : rangeLoop.Perm t.VideoProfiles) :
    (Transcode sortSlice w t rangePlaylist rangeLoop).err = none ∧
      encoderStarts (Transcode sortSlice w t rangePlaylist rangeLoop).trace
        = rangeLoop.map (fun e => (t.FFmpegBinary, encoderArgs t w.NumCPU e.1 e.2)) ∧
      (encoderStarts (Transcode sortSlice w t rangePlaylist rangeLoop).trace).Perm
        (t.VideoProfiles.map fun e => (t.FFmpegBinary, encoderArgs t w.NumCPU e.1 e.2)) ∧
      (encoderStarts (Transcode sortSlice w t rangePlaylist rangeLoop).trace).length
        = t.VideoProfiles.length := by
  obtain ⟨h1, h2⟩ := transcode_starts sortSlice w t rangePlaylist rangeLoop
  refine ⟨h1, h2, ?_, ?_⟩
  · rw [h2]
    exact hrange.map _
  · rw [h2, List.length_map, hrange.length_eq]

/-- Witness of `transcode_runs_every_profile`: the transcoder of `main`, the loop visiting the profiles in reverse order, in a world where every external step fails. -/
theorem transcode_runs_every_profile_witness :
    (Transcode insertionSortLessFunc failingWorld sampleTranscoder mainProfiles
        mainProfiles.reverse).err = none ∧
      (encoderStarts (Transcode insertionSortLessFunc failingWorld sampleTranscoder mainProfiles
        mainProfiles.reverse).trace).length = 10 :=
  ⟨(transcode_runs_every_profile insertionSortLessFunc failingWorld sampleTranscoder
      mainProfiles mainProfiles.reverse (List.reverse_perm _)).1,
    (transcode_runs_every_profile insertionSortLessFunc failingWorld sampleTranscoder
      mainProfiles mainProfiles.reverse (List.reverse_perm _)).2.2.2⟩

/-- C10 (as amended): `fetchMetadata` calls `ProbeVideo` if and only if `ProbeMedia`
succeeded, reported a video stream whose timestamp list is `nil`, and
`VideoKeyframes` is set (an empty list that is not `nil` does not start the
second probe); and when that second probe succeeds, `fetchMetadata` returns
`nil` and stores exactly the list the second probe returned, so that a `nil`
list stays `nil` and a list without timestamps (`nil` or empty) stays without
timestamps, and `Transcode` starts the encoder for every profile and returns
`nil`. -/
theorem keyframe_fallback (w : World) (t : Transcoder) :
    ((∃ ev ∈ (fetchMetadata w t).trace, ev.isProbeVideo = true) ↔
      ∃ metadata video, w.ProbeMedia t.FFprobeBinary t.MediaUrl = .ok metadata ∧
        metadata.Video = some video ∧ video.PktPtsTime = none ∧ t.VideoKeyframes = true) ∧
    (∀ metadata video videoData,
      w.ProbeMedia t.FFprobeBinary t.MediaUrl = .ok metadata →
      metadata.Video = some video → video.PktPtsTime = none → t.VideoKeyframes = true →
      w.ProbeVideo t.FFprobeBinary t.MediaUrl = .ok videoData →
        (fetchMetadata w t).err = none ∧
        (fetchMetadata w t).t.metadata
          = some { Video := some { PktPtsTime := videoData.PktPtsTime } } ∧
        (videoData.PktPtsTime = none →
          (fetchMetadata w t).t.metadata = some { Video := some { PktPtsTime := none } }) ∧
        (noTimestamps videoData.PktPtsTime →
          ∃ md v, (fetchMetadata w t).t.metadata = some md ∧ md.Video = some v ∧
            noTimestamps v.PktPtsTime) ∧
        ∀ (sortSlice : SliceSorter) (rangePlaylist rangeLoop : ProfileMap),
          (Transcode sortSlice w t rangePlaylist rangeLoop).err = none ∧
          encoderStarts (Transcode sortSlice w t rangePlaylist rangeLoop).trace
            = rangeLoop.map fun e => (t.FFmpegBinary, encoderArgs t w.NumCPU e.1 e.2)) := by
  constructor
  · unfold fetchMetadata
    split
    · rename_i e he
      simp [he, Event.isProbeVideo]
    · rename_i md hmd
      split
      · rename_i v hv
        split
        · rename_i hc
          split <;>
            (simp only [List.cons_append, List.nil_append, List.mem_cons, List.mem_singleton,
              List.not_mem_nil, or_false, exists_eq_or_imp, Event.isProbeVideo, exists_eq_left,
              Bool.false_eq_true, false_or, true_or, true_iff]
             exact ⟨md, v, hmd, hv, hc.1, hc.2⟩)
        · rename_i hc
          simp only [List.cons_append, List.nil_append, List.mem_cons, List.mem_singleton,
            List.not_mem_nil, or_false, exists_eq_or_imp, Event.isProbeVideo, exists_eq_left,
            Bool.false_eq_true, false_or, false_iff, not_exists, not_and]
          intro md2 v2 hmd2 hv2 hn
          rw [hmd] at hmd2
          cases hmd2
          rw [hv] at hv2
          cases hv2
          intro hk
          exact hc ⟨hn, hk⟩
      · rename_i hv
        simp only [List.cons_append, List.nil_append, List.mem_cons, List.mem_singleton,
          List.not_mem_nil, or_false, exists_eq_or_imp, Event.isProbeVideo, exists_eq_left,
          Bool.false_eq_true, false_or, false_iff, not_exists, not_and]
        intro md2 v2 hmd2 hv2
        rw [hmd] at hmd2
        cases hmd2
        rw [hv] at hv2
        cases hv2
  · intro metadata video videoData hmd hv hn hk hvd
    have hf : fetchMetadata w t =
        { t := { t with metadata := some { Video := some { PktPtsTime := videoData.PktPtsTime } } }
          err := none
          trace := [Event.logInfo "fetching metadata", Event.probeMedia t.FFprobeBinary t.MediaUrl] ++
            [Event.probeVideo t.FFprobeBinary t.MediaUrl] ++ [Event.logInfo "fetched metadata"] } := by
      simp [fetchMetadata, hmd, hv, hn, hk, hvd]
    refine ⟨by rw [hf], by rw [hf], ?_, ?_, ?_⟩
    · intro hnone
      rw [hf, hnone]
    · intro hts
      exact ⟨_, _, by rw [hf], rfl, hts⟩
    · intro sortSlice rangePlaylist rangeLoop
      exact transcode_starts sortSlice w t rangePlaylist rangeLoop

/-- C10 (counterexample): `ProbeMedia` succeeds and reports a video stream with an
empty, non-nil list of keyframe timestamps, and `VideoKeyframes` is set: the
general probe returned no keyframe timestamps, yet `fetchMetadata` does not
call `ProbeVideo` (line 246 tests `PktPtsTime == nil`). -/
theorem keyframe_probe_empty_list_counterexample :
    emptyTimestampsWorld.ProbeMedia sampleTranscoder.FFprobeBinary sampleTranscoder.MediaUrl
        = .ok { Video := some { PktPtsTime := some [] } } ∧
      noTimestamps (some []) ∧ sampleTranscoder.VideoKeyframes = true ∧
      (fetchMetadata emptyTimestampsWorld sampleTranscoder).err = none ∧
      ¬ ∃ ev ∈ (fetchMetadata emptyTimestampsWorld sampleTranscoder).trace,
          ev.isProbeVideo = true := by
  refine ⟨rfl, Or.inr rfl, rfl, rfl, ?_⟩
  decide

/-- Witness of `keyframe_fallback`: the transcoder of `main` in a world where neither probe reports keyframe timestamps. -/
theorem keyframe_fallback_witness :
    (fetchMetadata keyframelessWorld sampleTranscoder).err = none ∧
      (fetchMetadata keyframelessWorld sampleTranscoder).t.metadata
        = some { Video := some { PktPtsTime := none } } ∧
      (∃ ev ∈ (fetchMetadata keyframelessWorld sampleTranscoder).trace, ev.isProbeVideo = true) :=
  ⟨((keyframe_fallback keyframelessWorld sampleTranscoder).2 _ _ ⟨none⟩ rfl rfl rfl rfl rfl).1,
    ((keyframe_fallback keyframelessWorld sampleTranscoder).2 _ _ ⟨none⟩ rfl rfl rfl rfl
      rfl).2.2.1 rfl,
    (keyframe_fallback keyframelessWorld sampleTranscoder).1.2
      ⟨_, _, rfl, rfl, rfl, rfl⟩⟩

end Hls
